import Mathlib

/-! tmap: a TTL map over `sync.Map`.

A shallow embedding of `tmap.go`.

* `time.Time` is an integer count of nanoseconds measured from the zero
  instant `time.Time{}`; `time.Duration` is a (possibly negative) integer.
  Wrap-around of `Time.Add` at the far ends of the 64-bit second counter is
  outside the embedding.
* `sync.Map` is an association list with pairwise distinct keys.  The order of
  the list stands for the (unspecified) order in which `sync.Map.Range` visits
  the keys, so a statement over every map covers every visiting order.
* `nowFn` is a field of the store, as in the source.  A call `m.nowFn()` is the
  application `m.nowFn ()`; the clock is advanced by assigning the field, as
  the tests do.
* A Go `error` is `Option ErrNotFound`, `nil` being `none`; an `Item` that may
  be `nil` is `Option ι`.
-/

namespace Tmap

/-! ## Time -/

/-- Instants: nanoseconds since the zero instant of `time.Time`. -/
abbrev Time := Int

/-- Durations in nanoseconds, `time.Duration`. -/
abbrev Duration := Int

/-- The zero value `time.Time{}`. -/
def Time.zero : Time := 0

/-- `t.IsZero()`. -/
def Time.IsZero (t : Time) : Bool := t == Time.zero

/-- `t.After(u)`: `t` is strictly later than `u`. -/
def Time.After (t u : Time) : Bool := decide (u < t)

/-- `t.Add(d)`. -/
def Time.Add (t : Time) (d : Duration) : Time := t + d

/-! ## Items and errors -/

/-- The interface `Item`: anything with a `GetID() string` method. -/
class Item (ι : Type) where
  GetID : ι → String

/-- The type `ErrNotFound struct{}`. -/
inductive ErrNotFound where
  | mk : ErrNotFound
  deriving DecidableEq, Repr

/-- The package variable `errNotFound`. -/
def errNotFound : ErrNotFound := ErrNotFound.mk

/-- A Go `error` value of this package: `nil` or `errNotFound`. -/
abbrev GoError := Option ErrNotFound

/-- The struct `Wrapper`: an item with its absolute expiry. -/
structure Wrapper (ι : Type) where
  item : ι
  ttl : Time
  deriving DecidableEq, Repr

/-! ## sync.Map -/

/-- A `sync.Map` from `string` to `Wrapper`: entries with pairwise distinct keys. -/
structure SyncMap (ι : Type) where
  entries : List (String × Wrapper ι)
  nodup : (entries.map Prod.fst).Nodup

namespace SyncMap

variable {ι : Type}

/-- The zero value of `sync.Map`: no entries. -/
def empty : SyncMap ι := ⟨[], List.nodup_nil⟩

/-- The keys, in visiting order. -/
def keys (m : SyncMap ι) : List String := m.entries.map Prod.fst

/-- `m.Load(key)`: the value filed under `key`, if any. -/
def Load (m : SyncMap ι) (key : String) : Option (Wrapper ι) :=
  (m.entries.find? (fun e => e.1 == key)).map Prod.snd

/-- `m.Delete(key)`: removes the entry under `key`; the other entries keep their place. -/
def Delete (m : SyncMap ι) (key : String) : SyncMap ι :=
  ⟨m.entries.filter (fun e => e.1 != key),
    ((List.filter_sublist m.entries).map Prod.fst).nodup m.nodup⟩

/-- `m.Swap(key, value)`: files `value` under `key`, replacing a previous entry
(the previous value, which the callers here discard, is not returned). -/
def Swap (m : SyncMap ι) (key : String) (value : Wrapper ι) : SyncMap ι :=
  ⟨(key, value) :: m.entries.filter (fun e => e.1 != key), by
    rw [List.map_cons, List.nodup_cons]
    refine ⟨?_, ((List.filter_sublist m.entries).map Prod.fst).nodup m.nodup⟩
    intro h
    rcases List.mem_map.mp h with ⟨e, he, hk⟩
    have h2 := (List.mem_filter.mp he).2
    simp [hk] at h2⟩

/-- `m.Store(key, value)`, which in the Go library is `m.Swap(key, value)` with
the result dropped. -/
def Store (m : SyncMap ι) (key : String) (value : Wrapper ι) : SyncMap ι :=
  m.Swap key value

/-- The loop of `sync.Map.Range` over the keys present when the call began.
The callback may write to the map (it is a closure over the store), so the loop
threads a state `σ` from which the current map is read with `cur`.  At each key
the current value is loaded; a key that has meanwhile been deleted is skipped;
the loop stops when the callback returns `false`. -/
def rangeLoop {σ : Type} (cur : σ → SyncMap ι)
    (f : String → Wrapper ι → σ → Bool × σ) : List String → σ → σ
  | [], s => s
  | k :: ks, s =>
    match (cur s).Load k with
    | none => rangeLoop cur f ks s
    | some v =>
      let r := f k v s
      if r.1 then rangeLoop cur f ks r.2 else r.2

/-- `m.Range(f)`. -/
def Range {σ : Type} (cur : σ → SyncMap ι)
    (f : String → Wrapper ι → σ → Bool × σ) (s : σ) : σ :=
  rangeLoop cur f (cur s).keys s

/-- The loop of `sync.Map.Range` while other goroutines run.  It is `rangeLoop`,
except that between the load of the value under the key `k` and the call of the
callback on it the other goroutines take the steps `env k` on the state. -/
def rangeLoopAmid {σ : Type} (cur : σ → SyncMap ι)
    (f : String → Wrapper ι → σ → Bool × σ) (env : String → σ → σ) :
    List String → σ → σ
  | [], s => s
  | k :: ks, s =>
    match (cur s).Load k with
    | none => rangeLoopAmid cur f env ks s
    | some v =>
      let r := f k v (env k s)
      if r.1 then rangeLoopAmid cur f env ks r.2 else r.2

end SyncMap

/-! ## TMap -/

/-- The struct `TMap`. -/
structure TMap (ι : Type) where
  items : SyncMap ι
  ttl : Duration
  nowFn : Unit → Time

/-- `NewTMap(ttl, nowFn)`. -/
def NewTMap {ι : Type} (ttl : Duration) (nowFn : Unit → Time) : TMap ι :=
  { items := SyncMap.empty, ttl := ttl, nowFn := nowFn }

namespace TMap

variable {ι : Type} [Item ι]

/-- `m.getItemTTL(itemID)`. -/
def getItemTTL (m : TMap ι) (itemID : String) : Time :=
  match m.items.Load itemID with
  | some value => value.ttl
  | none => Time.zero

/-- `m.Load(ctx, itemID)`. -/
def Load (m : TMap ι) (itemID : String) : Option ι × GoError :=
  match m.items.Load itemID with
  | some value => (some value.item, none)
  | none => (none, some errNotFound)

/-- `m.Store(ctx, item)`: the store afterwards and the returned error. -/
def Store (m : TMap ι) (item : ι) : TMap ι × GoError :=
  let value : Wrapper ι := { item := item, ttl := Time.Add (m.nowFn ()) m.ttl }
  ({ m with items := m.items.Store (Item.GetID item) value }, none)

/-- `m.Swap(ctx, item)`: the store afterwards and the returned error. -/
def Swap (m : TMap ι) (item : ι) : TMap ι × GoError :=
  if (m.Load (Item.GetID item)).2 != none then
    (m, some errNotFound)
  else
    let value : Wrapper ι := { item := item, ttl := Time.Add (m.nowFn ()) m.ttl }
    ({ m with items := m.items.Swap (Item.GetID item) value }, none)

/-- `m.Delete(ctx, itemID)`: the store afterwards and the returned error. -/
def Delete (m : TMap ι) (itemID : String) : TMap ι × GoError :=
  if (m.Load itemID).2 != none then
    (m, some errNotFound)
  else
    ({ m with items := m.items.Delete itemID }, none)

/-- `m.Range(ctx, f)`.  The callback `f` is a closure: besides the item it is
given, it may read and write the store and its own captured variables (of type
`α`).  The result is the returned slice and error, and the state afterwards. -/
def Range {α : Type} (f : ι → TMap ι × α → Bool × (TMap ι × α)) (s : TMap ι × α) :
    (List ι × GoError) × (TMap ι × α) :=
  let r := SyncMap.Range (fun (st : (TMap ι × α) × List ι) => st.1.1.items)
    (fun _ value st =>
      let item := value.item
      let c := f item st.1
      (true, (c.2, if c.1 then st.2 ++ [item] else st.2)))
    (s, [])
  ((r.2, none), r.1)

/-- `m.Range(ctx, f)` for a callback that only inspects its item. -/
def RangePure (m : TMap ι) (p : ι → Bool) : (List ι × GoError) × TMap ι :=
  let r := Range (fun item (s : TMap ι × Unit) => (p item, s)) (m, ())
  (r.1, r.2.1)

/-- `m.Truncate(ctx)`: the callback deletes the identifier of each visited item
and keeps the last error in the captured variable `err`. -/
def Truncate (m : TMap ι) : TMap ι × GoError :=
  let r := Range
    (fun v (s : TMap ι × GoError) =>
      let d := s.1.Delete (Item.GetID v)
      (true, (d.1, d.2)))
    (m, none)
  (r.2.1, r.2.2)

/-- The body of the `case <-ticker.C` branch of `m.Flush`: one sweep. -/
def flushTick (m : TMap ι) : TMap ι :=
  (Range
    (fun v (s : TMap ι × Unit) =>
      let key := Item.GetID v
      let ttl := s.1.getItemTTL key
      if !Time.IsZero ttl && Time.After (s.1.nowFn ()) ttl then
        (true, ((s.1.Delete key).1, ()))
      else
        (true, s))
    (m, ())).2.1

/-- `m.Range(ctx, f)` while other goroutines run: between the load of the entry
under `k` and the callback on its item, they take the steps `env k` on the
store. -/
def RangeAmid {α : Type} (f : ι → TMap ι × α → Bool × (TMap ι × α))
    (env : String → TMap ι → TMap ι) (s : TMap ι × α) :
    (List ι × GoError) × (TMap ι × α) :=
  let r := SyncMap.rangeLoopAmid (fun (st : (TMap ι × α) × List ι) => st.1.1.items)
    (fun _ value st =>
      let item := value.item
      let c := f item st.1
      (true, (c.2, if c.1 then st.2 ++ [item] else st.2)))
    (fun k st => ((env k st.1.1, st.1.2), st.2))
    s.1.items.keys (s, [])
  ((r.2, none), r.1)

/-- `m.Truncate(ctx)` while other goroutines run: the body of `Truncate`, its
`Range` being `RangeAmid`. -/
def TruncateAmid (m : TMap ι) (env : String → TMap ι → TMap ι) : TMap ι × GoError :=
  let r := RangeAmid
    (fun v (s : TMap ι × GoError) =>
      let d := s.1.Delete (Item.GetID v)
      (true, (d.1, d.2)))
    env (m, none)
  (r.2.1, r.2.2)

/-- The goroutine of `Flush` taking its one sweep right after the `Range` of
another call has loaded the entry under `k0`, and doing nothing else. -/
def sweepAfterLoadOf (k0 : String) : String → TMap ι → TMap ι :=
  fun k s => if k == k0 then s.flushTick else s

/-- Assignment to the field `nowFn` of a clock that reads `t`. -/
def setNow (m : TMap ι) (t : Time) : TMap ι :=
  { m with nowFn := fun _ => t }

/-- Sweeps in a row, the clock reading `t` at each: what the `case <-ticker.C`
branch of `m.Flush` does over successive ticks. -/
def sweeps (m : TMap ι) : List Time → TMap ι
  | [] => m
  | t :: ts => sweeps (m.setNow t).flushTick ts

/-- The first statement of `m.Swap`, the existence check
`_, err := m.Load(ctx, item.GetID()); err != nil`: `true` when `Swap` gives up. -/
def swapCheck (m : TMap ι) (item : ι) : Bool :=
  (m.Load (Item.GetID item)).2 != none

/-- The second statement of `m.Swap`, the write
`m.items.Swap(item.GetID(), Wrapper{item, m.nowFn().Add(m.ttl)})`, on the store
as it is when the statement runs. -/
def swapWrite (m : TMap ι) (item : ι) : TMap ι :=
  let value : Wrapper ι := { item := item, ttl := Time.Add (m.nowFn ()) m.ttl }
  { m with items := m.items.Swap (Item.GetID item) value }

/-- What the loop of `m.Flush` selects on: a tick of the ticker, at which the
clock reads `now`, or the closing of `ctx.Done()`. -/
inductive Event where
  | tick (now : Time)
  | done

/-- `m.Flush(ctx, ticker)` run against the events it receives, in order.  A tick
runs one sweep; `done` stops the ticker and returns, so the events after it are
never looked at.  The result is `none` while the loop is still waiting for an
event when the list runs out. -/
def Flush (m : TMap ι) : List Event → Option (TMap ι)
  | [] => none
  | Event.tick now :: es => Flush (m.setNow now).flushTick es
  | Event.done :: _ => some m

end TMap

/-! ## Operations as a transition system -/

/-- A call on the store, or an event seen by it. -/
inductive Op (ι : Type) where
  | load (itemID : String)
  | store (item : ι)
  | swap (item : ι)
  | delete (itemID : String)
  | range (p : ι → Bool)
  | truncate
  | tick
  | clock (t : Time)

/-- What a call hands back. -/
inductive Ret (ι : Type) where
  | item (r : Option ι × GoError)
  | items (r : List ι × GoError)
  | err (e : GoError)
  | none

namespace TMap

variable {ι : Type} [Item ι]

/-- One call: the store afterwards and the value returned. -/
def exec (m : TMap ι) : Op ι → TMap ι × Ret ι
  | Op.load itemID => (m, Ret.item (m.Load itemID))
  | Op.store item => ((m.Store item).1, Ret.err (m.Store item).2)
  | Op.swap item => ((m.Swap item).1, Ret.err (m.Swap item).2)
  | Op.delete itemID => ((m.Delete itemID).1, Ret.err (m.Delete itemID).2)
  | Op.range p => ((m.RangePure p).2, Ret.items (m.RangePure p).1)
  | Op.truncate => (m.Truncate.1, Ret.err m.Truncate.2)
  | Op.tick => (m.flushTick, Ret.none)
  | Op.clock t => (m.setNow t, Ret.none)

/-- A sequence of calls, left to right. -/
def run (m : TMap ι) : List (Op ι) → TMap ι
  | [] => m
  | op :: ops => run (m.exec op).1 ops

end TMap

/-- The stores reachable from a freshly built one. -/
def Reachable {ι : Type} [Item ι] (m : TMap ι) : Prop :=
  ∃ (ttl : Duration) (nowFn : Unit → Time) (ops : List (Op ι)),
    (NewTMap ttl nowFn).run ops = m

/-- The test the sweep applies to an entry when the clock reads `now`, read off
the condition in `Flush`: the entry stays unless its expiry is not the zero
instant and lies strictly before `now`. -/
def sweepKeeps {ι : Type} (now : Time) (e : String × Wrapper ι) : Bool :=
  !(!Time.IsZero e.2.ttl && Time.After now e.2.ttl)

/-- Every entry is filed under the identifier of its own item. -/
def KeyInv {ι : Type} [Item ι] (m : SyncMap ι) : Prop :=
  ∀ e ∈ m.entries, Item.GetID e.2.item = e.1

/-! ## A concrete item type, as in the tests -/

/-- The struct `testItem` of `tmap_test.go`. -/
structure TestItem where
  id : String
  deleted : Bool
  deriving DecidableEq, Repr

instance : Item TestItem where
  GetID := fun t => t.id

/-- A store holding one entry filed under `a` whose item now answers `b` to
`GetID()`: what `it := &testItem{id: "a"}; m.Store(ctx, it); it.id = "b"` leaves
behind, items being held by pointer. -/
def storeMisfiled : TMap TestItem :=
  { items := ⟨[("a", Wrapper.mk (TestItem.mk "b" false) 10)], by simp⟩,
    ttl := 10, nowFn := fun _ => 0 }

/-- The store of `TestTruncate` when `Truncate` is called: TTL one second,
`item1`, `item2`, `item3` stored with the clock at `now` (here 1700000000 s after
the zero instant, in nanoseconds), then the clock set one hour later. -/
def storeTestTruncate : TMap TestItem :=
  (NewTMap 1000000000 (fun _ => 1700000000000000000)).run
    [Op.store (TestItem.mk "item1" false), Op.store (TestItem.mk "item2" false),
      Op.store (TestItem.mk "item3" false), Op.clock 1700003600000000000]

/-- The store of a ten-unit TTL, clock at the zero instant, after storing `A`,
`B` and `C`. -/
def storeABC : TMap TestItem :=
  (NewTMap 10 (fun _ => 0)).run
    [Op.store (TestItem.mk "A" false), Op.store (TestItem.mk "B" false),
      Op.store (TestItem.mk "C" false)]

end Tmap

namespace Tmap

/-! ## Lemmas on `sync.Map` -/

namespace SyncMap

variable {ι : Type}

theorem ext {m m' : SyncMap ι} (h : m.entries = m'.entries) : m = m' := by
  cases m; cases m'; cases h; rfl

/-- Looking a key up in a list of entries. -/
theorem find_eq_some_of_mem :
    ∀ (l : List (String × Wrapper ι)), (l.map Prod.fst).Nodup →
      ∀ (k : String) (w : Wrapper ι), (k, w) ∈ l →
        (l.find? (fun e => e.1 == k)).map Prod.snd = some w
  | [], _, _, _, h => by cases h
  | (k', w') :: l, hnd, k, w, h => by
    rw [List.map_cons, List.nodup_cons] at hnd
    by_cases hk : k' = k
    · subst hk
      rcases List.mem_cons.mp h with h1 | h1
      · cases h1
        simp [List.find?_cons]
      · exact absurd (List.mem_map.mpr ⟨(k', w), h1, rfl⟩) hnd.1
    · rcases List.mem_cons.mp h with h1 | h1
      · cases h1
        exact absurd rfl hk
      · have hb : ((k' == k) = false) := by simpa using hk
        simp only [List.find?_cons, hb]
        exact find_eq_some_of_mem l hnd.2 k w h1

theorem mem_of_Load_eq_some {m : SyncMap ι} {k : String} {w : Wrapper ι}
    (h : m.Load k = some w) : (k, w) ∈ m.entries := by
  unfold Load at h
  rcases Option.map_eq_some'.mp h with ⟨e, he, hw⟩
  have h1 := List.find?_some he
  have h2 := List.mem_of_find?_eq_some he
  have h3 : e.1 = k := by simpa using h1
  rcases e with ⟨a, b⟩
  simp only at h3 hw
  subst h3; subst hw
  exact h2

theorem Load_eq_some_iff {m : SyncMap ι} {k : String} {w : Wrapper ι} :
    m.Load k = some w ↔ (k, w) ∈ m.entries :=
  ⟨mem_of_Load_eq_some, find_eq_some_of_mem m.entries m.nodup k w⟩

theorem Load_eq_none_iff {m : SyncMap ι} {k : String} :
    m.Load k = none ↔ k ∉ m.keys := by
  unfold Load keys
  rw [Option.map_eq_none', List.find?_eq_none]
  constructor
  · intro h hk
    rcases List.mem_map.mp hk with ⟨e, he, hek⟩
    exact h e he (by simpa using hek)
  · intro h e he hek
    exact h (List.mem_map.mpr ⟨e, he, by simpa using hek⟩)

theorem Load_isSome_iff {m : SyncMap ι} {k : String} :
    (∃ w, m.Load k = some w) ↔ k ∈ m.keys := by
  constructor
  · rintro ⟨w, hw⟩
    by_contra hk
    rw [Load_eq_none_iff.mpr hk] at hw
    cases hw
  · intro hk
    cases h : m.Load k with
    | none => exact absurd hk (Load_eq_none_iff.mp h)
    | some w => exact ⟨w, rfl⟩

theorem Load_Swap_self (m : SyncMap ι) (k : String) (v : Wrapper ι) :
    (m.Swap k v).Load k = some v := by
  simp [Load, Swap, List.find?_cons]

theorem Load_Delete_self (m : SyncMap ι) (k : String) :
    (m.Delete k).Load k = none := by
  rw [Load_eq_none_iff]
  intro h
  rcases List.mem_map.mp h with ⟨e, he, hk⟩
  have h2 := (List.mem_filter.mp he).2
  simp [hk] at h2

theorem Load_Delete_ne (m : SyncMap ι) {k k' : String} (h : k' ≠ k) :
    (m.Delete k).Load k' = m.Load k' := by
  have key : ∀ w, (m.Delete k).Load k' = some w ↔ m.Load k' = some w := by
    intro w
    rw [Load_eq_some_iff, Load_eq_some_iff]
    simp [Delete, List.mem_filter, h]
  cases h1 : m.Load k' with
  | some w => exact (key w).mpr h1
  | none =>
    cases h2 : (m.Delete k).Load k' with
    | none => rfl
    | some w => rw [(key w).mp h2] at h1; cases h1

theorem Load_Swap_ne (m : SyncMap ι) {k k' : String} (v : Wrapper ι) (h : k' ≠ k) :
    (m.Swap k v).Load k' = m.Load k' := by
  have hb : ((k == k') = false) := by simpa using (Ne.symm h)
  have h1 : (m.Swap k v).Load k' = (m.Delete k).Load k' := by
    simp [Load, Swap, Delete, List.find?_cons, hb]
  rw [h1, Load_Delete_ne m h]

theorem filter_ne_of_absent (m : SyncMap ι) {k : String} (h : k ∉ m.keys) :
    m.entries.filter (fun e => e.1 != k) = m.entries := by
  rw [List.filter_eq_self]
  intro e he
  have : e.1 ≠ k := fun hk => h (List.mem_map.mpr ⟨e, he, hk⟩)
  simpa using this

theorem Delete_absent (m : SyncMap ι) {k : String} (h : k ∉ m.keys) :
    m.Delete k = m :=
  ext (filter_ne_of_absent m h)

/-- Removing a present key from a map with distinct keys removes one entry. -/
theorem length_filter_ne_of_present :
    ∀ (l : List (String × Wrapper ι)), (l.map Prod.fst).Nodup →
      ∀ (k : String), k ∈ l.map Prod.fst →
        (l.filter (fun e => e.1 != k)).length + 1 = l.length
  | [], _, _, h => by cases h
  | (k', w') :: l, hnd, k, h => by
    rw [List.map_cons, List.nodup_cons] at hnd
    by_cases hk : k' = k
    · subst hk
      have habs : l.filter (fun e => e.1 != k') = l := by
        rw [List.filter_eq_self]
        intro e he
        have : e.1 ≠ k' := fun hk => hnd.1 (List.mem_map.mpr ⟨e, he, hk⟩)
        simpa using this
      simp [List.filter_cons, habs]
    · have hin : k ∈ l.map Prod.fst := by
        rw [List.map_cons] at h
        rcases List.mem_cons.mp h with h1 | h1
        · exact absurd h1.symm hk
        · exact h1
      have ih := length_filter_ne_of_present l hnd.2 k hin
      have hb : ((k' != k) = true) := by simpa using hk
      simp only [List.filter_cons, hb, if_true, List.length_cons]
      omega

end SyncMap

end Tmap

namespace Tmap

/-! ## Lemmas on the loop of `Range` -/

namespace SyncMap

variable {ι : Type}

/-- A property kept by every visit is kept by the whole loop. -/
theorem rangeLoop_inv {σ : Type} (cur : σ → SyncMap ι)
    (f : String → Wrapper ι → σ → Bool × σ) (P : σ → Prop)
    (hf : ∀ k v s, P s → (cur s).Load k = some v → P (f k v s).2) :
    ∀ (ks : List String) (s : σ), P s → P (rangeLoop cur f ks s)
  | [], s, hs => by simpa [rangeLoop] using hs
  | k :: ks, s, hs => by
    unfold rangeLoop
    cases h : (cur s).Load k with
    | none => exact rangeLoop_inv cur f P hf ks s hs
    | some v =>
      simp only
      by_cases hc : (f k v s).1 = true
      · rw [if_pos hc]
        exact rangeLoop_inv cur f P hf ks _ (hf k v s hs h)
      · rw [if_neg hc]
        exact hf k v s hs h

/-- A loop whose every visit either leaves the visited entry or deletes it, and
touches no other entry, filters the map: of the visited keys exactly the entries
satisfying `keep` remain. -/
theorem rangeLoop_filter {σ : Type} (cur : σ → SyncMap ι)
    (f : String → Wrapper ι → σ → Bool × σ) (P : σ → Prop)
    (keep : String × Wrapper ι → Bool)
    (hf : ∀ k v s, P s → (cur s).Load k = some v →
      (f k v s).1 = true ∧ P (f k v s).2 ∧
        (cur (f k v s).2).entries = (cur s).entries.filter (fun e => e.1 != k || keep e)) :
    ∀ (ks : List String) (s : σ), P s →
      P (rangeLoop cur f ks s) ∧
        (cur (rangeLoop cur f ks s)).entries =
          (cur s).entries.filter (fun e => !(ks.contains e.1) || keep e)
  | [], s, hs => by
    refine ⟨by simpa [rangeLoop] using hs, ?_⟩
    simp [rangeLoop]
  | k :: ks, s, hs => by
    unfold rangeLoop
    cases h : (cur s).Load k with
    | none =>
      have ih := rangeLoop_filter cur f P keep hf ks s hs
      refine ⟨ih.1, ?_⟩
      simp only
      rw [ih.2]
      apply List.filter_congr
      intro e he
      have hk : e.1 ≠ k := fun hk =>
        (Load_eq_none_iff.mp h) (List.mem_map.mpr ⟨e, he, hk⟩)
      simp [List.contains_cons, hk]
    | some v =>
      obtain ⟨h1, h2, h3⟩ := hf k v s hs h
      simp only
      rw [if_pos h1]
      have ih := rangeLoop_filter cur f P keep hf ks _ h2
      refine ⟨ih.1, ?_⟩
      rw [ih.2, h3, List.filter_filter]
      apply List.filter_congr
      intro e _
      by_cases hk : e.1 = k
      · cases hkeep : keep e <;> simp [List.contains_cons, hk, hkeep]
      · cases hkeep : keep e <;> simp [List.contains_cons, hk, hkeep]

end SyncMap

end Tmap

namespace Tmap

/-! ## Lemmas on the operations of `TMap` -/

namespace TMap

variable {ι : Type}

theorem Load_of_some {m : TMap ι} {k : String} {v : Wrapper ι}
    (h : m.items.Load k = some v) : m.Load k = (some v.item, none) := by
  simp [Load, h]

theorem Load_of_none {m : TMap ι} {k : String}
    (h : m.items.Load k = none) : m.Load k = (none, some errNotFound) := by
  simp [Load, h]

theorem Delete_of_some [Item ι] {m : TMap ι} {k : String} {v : Wrapper ι}
    (h : m.items.Load k = some v) :
    m.Delete k = ({ m with items := m.items.Delete k }, none) := by
  simp [Delete, Load_of_some h]

theorem Delete_of_none [Item ι] {m : TMap ι} {k : String}
    (h : m.items.Load k = none) : m.Delete k = (m, some errNotFound) := by
  simp [Delete, Load_of_none h]

theorem Swap_of_some [Item ι] {m : TMap ι} {item : ι} {v : Wrapper ι}
    (h : m.items.Load (Item.GetID item) = some v) :
    m.Swap item =
      (TMap.mk (m.items.Swap (Item.GetID item) (Wrapper.mk item (Time.Add (m.nowFn ()) m.ttl)))
        m.ttl m.nowFn, none) := by
  simp [Swap, Load_of_some h]

theorem Swap_of_none [Item ι] {m : TMap ι} {item : ι}
    (h : m.items.Load (Item.GetID item) = none) : m.Swap item = (m, some errNotFound) := by
  simp [Swap, Load_of_none h]

/-- The loop of `Range` for a callback that only inspects its item: the store
is left alone and the slice collects the accepted items key by key. -/
theorem rangeLoop_pure (p : ι → Bool) :
    ∀ (ks : List String) (st : (TMap ι × Unit) × List ι),
      SyncMap.rangeLoop (fun (st : (TMap ι × Unit) × List ι) => st.1.1.items)
        (fun _ value st =>
          let item := value.item
          let c := (fun item (s : TMap ι × Unit) => (p item, s)) item st.1
          (true, (c.2, if c.1 then st.2 ++ [item] else st.2))) ks st
      = (st.1, st.2 ++ ks.filterMap (fun k =>
          (st.1.1.items.Load k).bind (fun v => if p v.item then some v.item else none)))
  | [], st => by simp [SyncMap.rangeLoop]
  | k :: ks, st => by
    unfold SyncMap.rangeLoop
    cases h : st.1.1.items.Load k with
    | none =>
      simp only [h]
      rw [rangeLoop_pure p ks st]
      simp [List.filterMap_cons, h]
    | some v =>
      simp only [h, if_true]
      rw [rangeLoop_pure p ks _]
      by_cases hp : p v.item = true
      · simp [List.filterMap_cons, h, hp]
      · simp [List.filterMap_cons, h, hp]

/-- Collecting over the keys of a map is collecting over its entries. -/
theorem keys_filterMap (m : SyncMap ι) (p : ι → Bool) :
    m.keys.filterMap (fun k =>
        (m.Load k).bind (fun v => if p v.item then some v.item else none))
      = (m.entries.map (fun e => e.2.item)).filter p := by
  unfold SyncMap.keys
  rw [List.filterMap_map]
  have h1 : m.entries.filterMap ((fun k =>
        (m.Load k).bind (fun v => if p v.item then some v.item else none)) ∘ Prod.fst)
      = m.entries.filterMap (fun e => if p e.2.item then some e.2.item else none) := by
    apply List.filterMap_congr
    intro e he
    have : m.Load e.1 = some e.2 := SyncMap.Load_eq_some_iff.mpr he
    simp [this]
  rw [h1]
  generalize m.entries = l
  induction l with
  | nil => rfl
  | cons e l ih =>
    by_cases hp : p e.2.item = true
    · simp [List.filterMap_cons, List.filter_cons, hp, ih]
    · simp [List.filterMap_cons, List.filter_cons, hp, ih]

/-- `Range` with a callback that only inspects its item returns, in visiting
order, the stored items accepted by the callback, and leaves the store as it was. -/
theorem RangePure_eq (m : TMap ι) (p : ι → Bool) :
    m.RangePure p = (((m.items.entries.map (fun e => e.2.item)).filter p, none), m) := by
  unfold RangePure Range SyncMap.Range
  simp only
  rw [rangeLoop_pure p m.items.keys ((m, ()), [])]
  simp only [List.nil_append]
  rw [keys_filterMap m.items p]

end TMap

end Tmap

namespace Tmap

/-! ## The key invariant, `Truncate` and the sweep -/

theorem KeyInv_filter {ι : Type} [Item ι] {m m' : SyncMap ι} (q : String × Wrapper ι → Bool)
    (h : KeyInv m) (hm : m'.entries = m.entries.filter q) : KeyInv m' := by
  intro e he
  rw [hm] at he
  exact h e (List.mem_filter.mp he).1

theorem KeyInv_empty {ι : Type} [Item ι] : KeyInv (SyncMap.empty : SyncMap ι) := by
  intro e he
  cases he

theorem KeyInv_Swap {ι : Type} [Item ι] {m : SyncMap ι} (h : KeyInv m) (item : ι) (t : Time) :
    KeyInv (m.Swap (Item.GetID item) (Wrapper.mk item t)) := by
  intro e he
  rcases List.mem_cons.mp he with h1 | h1
  · rw [h1]
  · exact h e (List.mem_filter.mp h1).1

namespace TMap

variable {ι : Type} [Item ι]

/-- What `Truncate` does on a store whose entries are filed under their own
identifiers: every entry is removed and the error is `nil`. -/
theorem Truncate_of_KeyInv (m : TMap ι) (h : KeyInv m.items) :
    m.Truncate.1.items.entries = [] ∧ m.Truncate.2 = none ∧
      m.Truncate.1.ttl = m.ttl ∧ m.Truncate.1.nowFn = m.nowFn := by
  have key := SyncMap.rangeLoop_filter
    (fun (st : (TMap ι × GoError) × List ι) => st.1.1.items)
    (fun _ value st =>
      let item := value.item
      let c := (fun v (s : TMap ι × GoError) =>
        let d := s.1.Delete (Item.GetID v)
        (true, (d.1, d.2))) item st.1
      (true, (c.2, if c.1 then st.2 ++ [item] else st.2)))
    (fun st => KeyInv st.1.1.items ∧ st.1.2 = none ∧ st.1.1.ttl = m.ttl ∧
      st.1.1.nowFn = m.nowFn)
    (fun _ => false)
    (by
      intro k v s hs hl
      have hid : Item.GetID v.item = k := hs.1 (k, v) (SyncMap.Load_eq_some_iff.mp hl)
      have hd := Delete_of_some hl
      refine ⟨rfl, ⟨?_, ?_, ?_, ?_⟩, ?_⟩
      · show KeyInv (s.1.1.Delete (Item.GetID v.item)).1.items
        rw [hid, hd]
        exact KeyInv_filter _ hs.1 rfl
      · show (s.1.1.Delete (Item.GetID v.item)).2 = none
        rw [hid, hd]
      · show (s.1.1.Delete (Item.GetID v.item)).1.ttl = m.ttl
        rw [hid, hd]
        exact hs.2.2.1
      · show (s.1.1.Delete (Item.GetID v.item)).1.nowFn = m.nowFn
        rw [hid, hd]
        exact hs.2.2.2
      · show (s.1.1.Delete (Item.GetID v.item)).1.items.entries = _
        rw [hid, hd]
        simp only [Bool.or_false]
        rfl)
    m.items.keys ((m, none), []) ⟨h, rfl, rfl, rfl⟩
  have h1 : m.Truncate.1.items.entries =
      m.items.entries.filter (fun e => !(m.items.keys.contains e.1) || false) := key.2
  refine ⟨?_, key.1.2.1, key.1.2.2.1, key.1.2.2.2⟩
  rw [h1, List.filter_eq_nil_iff]
  intro e he
  have : e.1 ∈ m.items.keys := List.mem_map.mpr ⟨e, he, rfl⟩
  simp [this]

/-- What one sweep does on a store whose entries are filed under their own
identifiers. -/
theorem flushTick_of_KeyInv (m : TMap ι) (h : KeyInv m.items) :
    m.flushTick.items.entries = m.items.entries.filter (sweepKeeps (m.nowFn ())) ∧
      m.flushTick.ttl = m.ttl ∧ m.flushTick.nowFn = m.nowFn := by
  have key := SyncMap.rangeLoop_filter
    (fun (st : (TMap ι × Unit) × List ι) => st.1.1.items)
    (fun _ value st =>
      let item := value.item
      let c := (fun v (s : TMap ι × Unit) =>
        let key := Item.GetID v
        let ttl := s.1.getItemTTL key
        if !Time.IsZero ttl && Time.After (s.1.nowFn ()) ttl then
          (true, ((s.1.Delete key).1, ()))
        else
          (true, s)) item st.1
      (true, (c.2, if c.1 then st.2 ++ [item] else st.2)))
    (fun st => KeyInv st.1.1.items ∧ st.1.1.ttl = m.ttl ∧ st.1.1.nowFn = m.nowFn)
    (sweepKeeps (m.nowFn ()))
    (by
      intro k v s hs hl
      have hid : Item.GetID v.item = k := hs.1 (k, v) (SyncMap.Load_eq_some_iff.mp hl)
      have hd := Delete_of_some hl
      have httl : s.1.1.getItemTTL k = v.ttl := by simp [getItemTTL, hl]
      have huniq : ∀ e ∈ s.1.1.items.entries, e.1 = k → e.2 = v := by
        intro e he hk
        have h1 : s.1.1.items.Load k = some e.2 :=
          SyncMap.Load_eq_some_iff.mpr (by rw [← hk]; exact he)
        rw [hl] at h1
        exact (Option.some.inj h1).symm
      have hcb : (if !Time.IsZero (s.1.1.getItemTTL (Item.GetID v.item)) &&
            Time.After (s.1.1.nowFn ()) (s.1.1.getItemTTL (Item.GetID v.item)) then
            (true, ((s.1.1.Delete (Item.GetID v.item)).1, ()))
          else (true, s.1)) =
          (true, ((if !Time.IsZero v.ttl && Time.After (m.nowFn ()) v.ttl then
            TMap.mk (s.1.1.items.Delete k) s.1.1.ttl s.1.1.nowFn else s.1.1), ())) := by
        rw [hid, httl, hd, hs.2.2]
        by_cases hx : (!Time.IsZero v.ttl && Time.After (m.nowFn ()) v.ttl) = true
        · rw [if_pos hx, if_pos hx]
        · rw [if_neg hx, if_neg hx]
      refine ⟨rfl, ?_, ?_⟩
      · show KeyInv (_ : Bool × (TMap ι × Unit)).2.1.items ∧ (_ : Bool × (TMap ι × Unit)).2.1.ttl = m.ttl ∧
          (_ : Bool × (TMap ι × Unit)).2.1.nowFn = m.nowFn
        rw [hcb]
        by_cases hx : (!Time.IsZero v.ttl && Time.After (m.nowFn ()) v.ttl) = true
        · rw [if_pos hx]
          exact ⟨KeyInv_filter _ hs.1 rfl, hs.2.1, hs.2.2⟩
        · rw [if_neg hx]
          exact hs
      show (_ : Bool × (TMap ι × Unit)).2.1.items.entries = _
      rw [hcb]
      by_cases hx : (!Time.IsZero v.ttl && Time.After (m.nowFn ()) v.ttl) = true
      · rw [if_pos hx]
        show s.1.1.items.entries.filter (fun e => e.1 != k) = _
        apply List.filter_congr
        intro e he
        by_cases hk : e.1 = k
        · have hv := huniq e he hk
          simp [hk, sweepKeeps, hv, hx]
        · simp [hk]
      · rw [if_neg hx]
        symm
        show List.filter _ s.1.1.items.entries = s.1.1.items.entries
        rw [List.filter_eq_self]
        intro e he
        by_cases hk : e.1 = k
        · have hv := huniq e he hk
          have hx' : (!Time.IsZero v.ttl && Time.After (m.nowFn ()) v.ttl) = false :=
            Bool.eq_false_iff.mpr hx
          have : sweepKeeps (m.nowFn ()) e = true := by
            simp only [sweepKeeps, hv, hx']
            rfl
          simp [this]
        · simp [hk])
    m.items.keys ((m, ()), []) ⟨h, rfl, rfl⟩
  have h1 : m.flushTick.items.entries =
      m.items.entries.filter
        (fun e => !(m.items.keys.contains e.1) || sweepKeeps (m.nowFn ()) e) := key.2
  refine ⟨?_, key.1.2.1, key.1.2.2⟩
  rw [h1]
  apply List.filter_congr
  intro e he
  have : e.1 ∈ m.items.keys := List.mem_map.mpr ⟨e, he, rfl⟩
  simp [this]

end TMap

end Tmap

namespace Tmap

/-! ## Reachable stores keep the key invariant -/

theorem KeyInv_exec {ι : Type} [Item ι] (m : TMap ι) (h : KeyInv m.items) (op : Op ι) :
    KeyInv (m.exec op).1.items := by
  cases op with
  | load itemID => exact h
  | store item => exact KeyInv_Swap h item _
  | swap item =>
    show KeyInv (m.Swap item).1.items
    cases hl : m.items.Load (Item.GetID item) with
    | none => rw [TMap.Swap_of_none hl]; exact h
    | some v => rw [TMap.Swap_of_some hl]; exact KeyInv_Swap h item _
  | delete itemID =>
    show KeyInv (m.Delete itemID).1.items
    cases hl : m.items.Load itemID with
    | none => rw [TMap.Delete_of_none hl]; exact h
    | some v => rw [TMap.Delete_of_some hl]; exact KeyInv_filter _ h rfl
  | range p =>
    show KeyInv (m.RangePure p).2.items
    rw [TMap.RangePure_eq]
    exact h
  | truncate =>
    intro e he
    have h0 : m.Truncate.1.items.entries = [] := (TMap.Truncate_of_KeyInv m h).1
    have he' : e ∈ m.Truncate.1.items.entries := he
    rw [h0] at he'
    cases he'
  | tick => exact KeyInv_filter _ h (TMap.flushTick_of_KeyInv m h).1
  | clock t => exact h

theorem KeyInv_run {ι : Type} [Item ι] :
    ∀ (ops : List (Op ι)) (m : TMap ι), KeyInv m.items → KeyInv (m.run ops).items
  | [], _, h => h
  | op :: ops, m, h => KeyInv_run ops (m.exec op).1 (KeyInv_exec m h op)

theorem KeyInv_of_Reachable {ι : Type} [Item ι] {m : TMap ι} (h : Reachable m) :
    KeyInv m.items := by
  obtain ⟨ttl, nowFn, ops, rfl⟩ := h
  exact KeyInv_run ops _ KeyInv_empty

/-- Under the key invariant the identifiers of the stored items are the keys. -/
theorem map_GetID_items {ι : Type} [Item ι] {m : SyncMap ι} (h : KeyInv m) :
    (m.entries.map (fun e => e.2.item)).map Item.GetID = m.keys := by
  unfold SyncMap.keys
  rw [List.map_map]
  apply List.map_congr_left
  intro e he
  exact h e he

theorem Load_err_eq_none_iff {ι : Type} (m : TMap ι) (id : String) :
    (m.Load id).2 = none ↔ id ∈ m.items.keys := by
  cases hl : m.items.Load id with
  | none =>
    rw [TMap.Load_of_none hl]
    have := SyncMap.Load_eq_none_iff.mp hl
    simp [this]
  | some v =>
    rw [TMap.Load_of_some hl]
    have := SyncMap.Load_isSome_iff.mp ⟨v, hl⟩
    simp [this]

end Tmap

namespace Tmap

/-! ## The contract of the operations -/

/-- C1. For every store, every item `x` and every clock reading `now`,
`Store(x)` returns `nil` and a `Load(x.GetID())` made right after it returns
exactly `x` with a `nil` error. -/
theorem C1_store_then_load {ι : Type} [Item ι] (m : TMap ι) (x : ι) (now : Time) :
    ((m.setNow now).Store x).2 = none ∧
      ((m.setNow now).Store x).1.Load (Item.GetID x) = (some x, none) := by
  have h : ((m.setNow now).Store x).1.items.Load (Item.GetID x)
      = some (Wrapper.mk x (Time.Add now m.ttl)) := SyncMap.Load_Swap_self _ _ _
  exact ⟨rfl, TMap.Load_of_some h⟩

/-- C2. `Load(id)` returns the `NotFound` error exactly when no entry is filed
under `id` (and then the item is `nil`); when an entry is filed under `id` it
returns that entry's item with a `nil` error, whatever the expiry of the entry
is, in particular when the expiry lies before the clock reading. -/
theorem C2_load_contract {ι : Type} (m : TMap ι) (id : String) :
    ((m.Load id).2 = some errNotFound ↔ ∀ w, (id, w) ∉ m.items.entries) ∧
      ((∀ w, (id, w) ∉ m.items.entries) → m.Load id = (none, some errNotFound)) ∧
      (∀ w, (id, w) ∈ m.items.entries → m.Load id = (some w.item, none)) ∧
      (∀ w, (id, w) ∈ m.items.entries → w.ttl < m.nowFn () →
        m.Load id = (some w.item, none)) := by
  have hsome : ∀ w, (id, w) ∈ m.items.entries → m.Load id = (some w.item, none) :=
    fun w hw => TMap.Load_of_some (SyncMap.Load_eq_some_iff.mpr hw)
  have hnone : (∀ w, (id, w) ∉ m.items.entries) → m.Load id = (none, some errNotFound) := by
    intro h
    cases hl : m.items.Load id with
    | none => exact TMap.Load_of_none hl
    | some v => exact absurd (SyncMap.Load_eq_some_iff.mp hl) (h v)
  refine ⟨⟨?_, ?_⟩, hnone, hsome, fun w hw _ => hsome w hw⟩
  · intro h w hw
    rw [hsome w hw] at h
    cases h
  · intro h
    rw [hnone h]

/-- C3. When no entry is filed under `item.GetID()`, `Swap(item)` returns
`NotFound` and leaves the store exactly as it was; a `Load` of the identifier
made afterwards still returns `NotFound`. -/
theorem C3_swap_absent {ι : Type} [Item ι] (m : TMap ι) (item : ι)
    (h : Item.GetID item ∉ m.items.keys) :
    (m.Swap item).2 = some errNotFound ∧ (m.Swap item).1 = m ∧
      (m.Swap item).1.Load (Item.GetID item) = (none, some errNotFound) := by
  have hl := SyncMap.Load_eq_none_iff.mpr h
  rw [TMap.Swap_of_none hl]
  exact ⟨rfl, rfl, TMap.Load_of_none hl⟩

/-- C4. When an entry is filed under `item.GetID()` and the clock reads `now`,
`Swap(item)` returns `nil`; afterwards the entry under `item.GetID()` holds the
new item with expiry `now + ttl`, every other identifier has the entry it had,
and the TTL of the store is unchanged. -/
theorem C4_swap_present {ι : Type} [Item ι] (m : TMap ι) (item : ι) (now : Time)
    (h : Item.GetID item ∈ m.items.keys) :
    ((m.setNow now).Swap item).2 = none ∧
      ((m.setNow now).Swap item).1.items.Load (Item.GetID item)
        = some (Wrapper.mk item (now + m.ttl)) ∧
      (∀ k, k ≠ Item.GetID item →
        ((m.setNow now).Swap item).1.items.Load k = m.items.Load k) ∧
      ((m.setNow now).Swap item).1.ttl = m.ttl := by
  obtain ⟨v, hv⟩ := SyncMap.Load_isSome_iff.mpr h
  have hv' : (m.setNow now).items.Load (Item.GetID item) = some v := hv
  rw [TMap.Swap_of_some hv']
  refine ⟨rfl, SyncMap.Load_Swap_self _ _ _, ?_, rfl⟩
  intro k hk
  exact SyncMap.Load_Swap_ne m.items _ hk

/-- C5. `Delete(id)` returns `NotFound` exactly when no entry is filed under
`id`, and then the store is unchanged; when an entry is filed under `id` it
returns `nil`, a `Load(id)` made afterwards returns `NotFound`, and every other
identifier has the entry it had. -/
theorem C5_delete_contract {ι : Type} [Item ι] (m : TMap ι) (id : String) :
    ((m.Delete id).2 = some errNotFound ↔ id ∉ m.items.keys) ∧
      (id ∉ m.items.keys → (m.Delete id).1 = m) ∧
      (id ∈ m.items.keys →
        (m.Delete id).2 = none ∧
          (m.Delete id).1.Load id = (none, some errNotFound) ∧
          (∀ k, k ≠ id → (m.Delete id).1.items.Load k = m.items.Load k) ∧
          (m.Delete id).1.ttl = m.ttl ∧ (m.Delete id).1.nowFn = m.nowFn) := by
  cases hl : m.items.Load id with
  | none =>
    have hk := SyncMap.Load_eq_none_iff.mp hl
    rw [TMap.Delete_of_none hl]
    exact ⟨⟨fun _ => hk, fun _ => rfl⟩, fun _ => rfl, fun h => absurd h hk⟩
  | some v =>
    have hk := SyncMap.Load_isSome_iff.mp ⟨v, hl⟩
    rw [TMap.Delete_of_some hl]
    refine ⟨⟨fun h => (by cases h), fun h => absurd hk h⟩, fun h => absurd hk h, fun _ => ?_⟩
    refine ⟨rfl, TMap.Load_of_none (SyncMap.Load_Delete_self _ _), ?_, rfl, rfl⟩
    intro k hne
    exact SyncMap.Load_Delete_ne m.items hne

/-- C6. For every store, item and clock reading `now`, `Store(item)` returns
`nil`; afterwards exactly one entry is filed under `item.GetID()`, namely
`(item, now + ttl)`, every other identifier has the entry it had, and the number
of entries has grown by one if the identifier was absent and is the same if it
was present. -/
theorem C6_store_contract {ι : Type} [Item ι] (m : TMap ι) (item : ι) (now : Time) :
    ((m.setNow now).Store item).2 = none ∧
      ((m.setNow now).Store item).1.items.entries.filter
          (fun e => e.1 == Item.GetID item)
        = [(Item.GetID item, Wrapper.mk item (now + m.ttl))] ∧
      ((m.setNow now).Store item).1.items.Load (Item.GetID item)
        = some (Wrapper.mk item (now + m.ttl)) ∧
      (∀ k, k ≠ Item.GetID item →
        ((m.setNow now).Store item).1.items.Load k = m.items.Load k) ∧
      (Item.GetID item ∉ m.items.keys →
        ((m.setNow now).Store item).1.items.entries.length = m.items.entries.length + 1) ∧
      (Item.GetID item ∈ m.items.keys →
        ((m.setNow now).Store item).1.items.entries.length = m.items.entries.length) := by
  refine ⟨rfl, ?_, SyncMap.Load_Swap_self _ _ _, ?_, ?_, ?_⟩
  · show ((Item.GetID item, Wrapper.mk item (now + m.ttl)) ::
        m.items.entries.filter (fun e => e.1 != Item.GetID item)).filter
          (fun e => e.1 == Item.GetID item) = _
    rw [List.filter_cons, List.filter_filter]
    simp
  · intro k hk
    exact SyncMap.Load_Swap_ne m.items _ hk
  · intro h
    show (m.items.entries.filter (fun e => e.1 != Item.GetID item)).length + 1 = _
    rw [SyncMap.filter_ne_of_absent m.items h]
  · intro h
    exact SyncMap.length_filter_ne_of_present m.items.entries m.items.nodup _ h

end Tmap

namespace Tmap

/-- C3, at a concrete store: a `Swap` of an identifier that was never stored. -/
theorem C3_swap_absent_witness :
    Item.GetID (TestItem.mk "notfound" false) ∉ storeABC.items.keys ∧
      ((storeABC.Swap (TestItem.mk "notfound" false)).2 = some errNotFound ∧
        (storeABC.Swap (TestItem.mk "notfound" false)).1 = storeABC ∧
        (storeABC.Swap (TestItem.mk "notfound" false)).1.Load
            (Item.GetID (TestItem.mk "notfound" false)) = (none, some errNotFound)) :=
  ⟨by decide, C3_swap_absent storeABC (TestItem.mk "notfound" false) (by decide)⟩

/-- C4, at a concrete store: a `Swap` of a stored identifier at clock reading 7. -/
theorem C4_swap_present_witness :
    Item.GetID (TestItem.mk "B" true) ∈ storeABC.items.keys ∧
      (((storeABC.setNow 7).Swap (TestItem.mk "B" true)).2 = none ∧
        ((storeABC.setNow 7).Swap (TestItem.mk "B" true)).1.items.Load
            (Item.GetID (TestItem.mk "B" true))
          = some (Wrapper.mk (TestItem.mk "B" true) (7 + storeABC.ttl)) ∧
        (∀ k, k ≠ Item.GetID (TestItem.mk "B" true) →
          ((storeABC.setNow 7).Swap (TestItem.mk "B" true)).1.items.Load k
            = storeABC.items.Load k) ∧
        ((storeABC.setNow 7).Swap (TestItem.mk "B" true)).1.ttl = storeABC.ttl) :=
  ⟨by decide, C4_swap_present storeABC (TestItem.mk "B" true) 7 (by decide)⟩

/-- C7. In every store reached from an empty one through `Store`, `Swap`,
`Delete`, `Truncate` and eviction sweeps, `Range` with an always-true predicate
returns, with a `nil` error, items whose identifiers are pairwise distinct and
are exactly the identifiers for which `Load` succeeds; its length is the number
of those identifiers, and it is three after storing `test1`, `test2`, `test3`
in an empty store. -/
theorem C7_range_all_live {ι : Type} [Item ι] (m : TMap ι) (h : Reachable m) :
    (m.RangePure (fun _ => true)).1.2 = none ∧
      (((m.RangePure (fun _ => true)).1.1).map Item.GetID).Nodup ∧
      (∀ id, id ∈ ((m.RangePure (fun _ => true)).1.1).map Item.GetID ↔
        (m.Load id).2 = none) ∧
      (∃ s : Finset String, (∀ id, id ∈ s ↔ (m.Load id).2 = none) ∧
        (m.RangePure (fun _ => true)).1.1.length = s.card) ∧
      (∀ (ttl : Duration) (nowFn : Unit → Time),
        ((((NewTMap ttl nowFn : TMap TestItem).run
          [Op.store (TestItem.mk "test1" false), Op.store (TestItem.mk "test2" false),
            Op.store (TestItem.mk "test3" false)]).RangePure (fun _ => true)).1.1).length
          = 3) := by
  have hinv := KeyInv_of_Reachable h
  have hr : (m.RangePure (fun _ => true)).1.1 = m.items.entries.map (fun e => e.2.item) := by
    rw [TMap.RangePure_eq]
    simp
  have hids : ((m.RangePure (fun _ => true)).1.1).map Item.GetID = m.items.keys := by
    rw [hr]
    exact map_GetID_items hinv
  refine ⟨by rw [TMap.RangePure_eq], ?_, ?_, ?_, ?_⟩
  · rw [hids]
    exact m.items.nodup
  · intro id
    rw [hids]
    exact (Load_err_eq_none_iff m id).symm
  · refine ⟨m.items.keys.toFinset, ?_, ?_⟩
    · intro id
      rw [List.mem_toFinset]
      exact (Load_err_eq_none_iff m id).symm
    · have hc : m.items.keys.toFinset.card = m.items.keys.length :=
        List.toFinset_card_of_nodup m.items.nodup
      rw [hc, hr]
      simp [SyncMap.keys]
  · intro ttl nowFn
    rw [TMap.RangePure_eq]
    rfl

/-- C7, at the store holding `A`, `B` and `C`. -/
theorem C7_range_all_live_witness :
    Reachable storeABC ∧
      (((storeABC.RangePure (fun _ => true)).1.1).map Item.GetID).Nodup ∧
      (storeABC.RangePure (fun _ => true)).1.1.length = 3 :=
  ⟨⟨10, fun _ => 0, _, rfl⟩,
    (C7_range_all_live storeABC ⟨10, fun _ => 0, _, rfl⟩).2.1, by decide⟩

/-- C8. For every store and every predicate `p` that only inspects its item,
`Range(p)` returns a `nil` error and a slice that is, up to order, the stored
items satisfying `p`, one occurrence for each entry; every item in the slice
satisfies `p` and is the item of some entry, and no item occurs twice when the
entries are filed under their own identifiers. -/
theorem C8_range_filter {ι : Type} [Item ι] (m : TMap ι) (p : ι → Bool) :
    (m.RangePure p).1.2 = none ∧
      ((m.RangePure p).1.1).Perm ((m.items.entries.map (fun e => e.2.item)).filter p) ∧
      (∀ x ∈ (m.RangePure p).1.1, p x = true ∧ ∃ e ∈ m.items.entries, e.2.item = x) ∧
      (∀ e ∈ m.items.entries, p e.2.item = true → e.2.item ∈ (m.RangePure p).1.1) ∧
      (KeyInv m.items → ((m.RangePure p).1.1).Nodup) := by
  rw [TMap.RangePure_eq]
  refine ⟨rfl, List.Perm.refl _, ?_, ?_, ?_⟩
  rotate_left 2
  · intro hinv
    apply List.Nodup.filter
    apply List.Nodup.of_map Item.GetID
    rw [map_GetID_items hinv]
    exact m.items.nodup
  · intro x hx
    have h1 := List.mem_filter.mp hx
    obtain ⟨e, he, hex⟩ := List.mem_map.mp h1.1
    exact ⟨h1.2, e, he, hex⟩
  · intro e he hp
    exact List.mem_filter.mpr ⟨List.mem_map.mpr ⟨e, he, rfl⟩, hp⟩

/-- C9. Reads never change the store: after `Load(id)` and after `Range(p)`,
for a predicate `p` that only inspects its item, the store is the one before the
call, so every entry has the item and the expiry it had. -/
theorem C9_reads_change_nothing {ι : Type} [Item ι] (m : TMap ι) (id : String)
    (p : ι → Bool) :
    (m.exec (Op.load id)).1 = m ∧ (m.exec (Op.range p)).1 = m ∧
      (m.exec (Op.load id)).1.items.entries = m.items.entries ∧
      (m.exec (Op.range p)).1.items.entries = m.items.entries ∧
      (∀ k, (m.exec (Op.load id)).1.getItemTTL k = m.getItemTTL k) ∧
      (∀ k, (m.exec (Op.range p)).1.getItemTTL k = m.getItemTTL k) := by
  have hr : (m.exec (Op.range p)).1 = m := by
    show (m.RangePure p).2 = m
    rw [TMap.RangePure_eq]
  refine ⟨rfl, hr, rfl, by rw [hr], fun _ => rfl, fun k => by rw [hr]⟩

/-- C10. In every store reached through the operations, after `Truncate` every
entry present at the call is gone: the store is empty, a `Range` with an
always-true predicate made afterwards returns the empty slice, and `Load` of
every identifier returns `NotFound`. -/
theorem C10_truncate_empties {ι : Type} [Item ι] (m : TMap ι) (h : Reachable m) :
    (∀ e ∈ m.items.entries, e ∉ m.Truncate.1.items.entries) ∧
      m.Truncate.1.items.entries = [] ∧
      (m.Truncate.1.RangePure (fun _ => true)).1 = ([], none) ∧
      (∀ id, m.Truncate.1.Load id = (none, some errNotFound)) := by
  have h0 : m.Truncate.1.items.entries = [] :=
    (TMap.Truncate_of_KeyInv m (KeyInv_of_Reachable h)).1
  refine ⟨?_, h0, ?_, ?_⟩
  · intro e _ he
    rw [h0] at he
    cases he
  · rw [TMap.RangePure_eq, h0]
    rfl
  · intro id
    apply TMap.Load_of_none
    rw [SyncMap.Load_eq_none_iff]
    unfold SyncMap.keys
    rw [h0]
    simp

/-- C10, at the store holding `A`, `B` and `C`. -/
theorem C10_truncate_empties_witness :
    Reachable storeABC ∧ storeABC.items.entries.length = 3 ∧
      storeABC.Truncate.1.items.entries = [] ∧
      (storeABC.Truncate.1.RangePure (fun _ => true)).1 = ([], none) :=
  ⟨⟨10, fun _ => 0, _, rfl⟩, by decide,
    (C10_truncate_empties storeABC ⟨10, fun _ => 0, _, rfl⟩).2.1,
    (C10_truncate_empties storeABC ⟨10, fun _ => 0, _, rfl⟩).2.2.1⟩

end Tmap

namespace Tmap

/-! ## The sweep on an arbitrary store -/

namespace SyncMap

variable {ι : Type}

/-- A loop that passes the key `k` reaches a state with `Q`, when the visit of
`k` establishes `Q`, a map without `k` has `Q` already, and later visits keep
`Q`; `P` is what every visit preserves. -/
theorem rangeLoop_reach {σ : Type} (cur : σ → SyncMap ι)
    (f : String → Wrapper ι → σ → Bool × σ) (P Q : σ → Prop) (k : String)
    (hP : ∀ k' v s, P s → (cur s).Load k' = some v → (f k' v s).1 = true ∧ P (f k' v s).2)
    (hQ : ∀ k' v s, P s → Q s → (cur s).Load k' = some v → Q (f k' v s).2)
    (hhit : ∀ v s, P s → (cur s).Load k = some v → Q (f k v s).2)
    (hmiss : ∀ s, P s → (cur s).Load k = none → Q s) :
    ∀ (ks : List String) (s : σ), P s → (k ∈ ks ∨ Q s) → Q (rangeLoop cur f ks s)
  | [], s, _, h => by
    rcases h with h | h
    · cases h
    · simpa [rangeLoop] using h
  | k0 :: ks, s, hs, h => by
    unfold rangeLoop
    cases hl : (cur s).Load k0 with
    | none =>
      simp only
      apply rangeLoop_reach cur f P Q k hP hQ hhit hmiss ks s hs
      rcases h with h | h
      · rcases List.mem_cons.mp h with h1 | h1
        · subst h1
          exact Or.inr (hmiss s hs hl)
        · exact Or.inl h1
      · exact Or.inr h
    | some v =>
      obtain ⟨h1, h2⟩ := hP k0 v s hs hl
      simp only
      rw [if_pos h1]
      apply rangeLoop_reach cur f P Q k hP hQ hhit hmiss ks _ h2
      rcases h with h | h
      · rcases List.mem_cons.mp h with h3 | h3
        · subst h3
          exact Or.inr (hhit v s hs hl)
        · exact Or.inl h3
      · exact Or.inr (hQ k0 v s hs h hl)

end SyncMap

namespace TMap

variable {ι : Type} [Item ι]

/-- Whatever the store, `Delete` leaves the entries filed under other keys and
nothing under the key, and touches neither the TTL nor the clock. -/
theorem Delete_entries (m : TMap ι) (k : String) :
    (m.Delete k).1.items.entries = m.items.entries.filter (fun e => e.1 != k) ∧
      (m.Delete k).1.ttl = m.ttl ∧ (m.Delete k).1.nowFn = m.nowFn := by
  cases hl : m.items.Load k with
  | none =>
    rw [Delete_of_none hl]
    exact ⟨(SyncMap.filter_ne_of_absent m.items (SyncMap.Load_eq_none_iff.mp hl)).symm,
      rfl, rfl⟩
  | some v =>
    rw [Delete_of_some hl]
    exact ⟨rfl, rfl, rfl⟩

/-- The callback of the sweep, as a function of the visited item and the store. -/
theorem sweep_visit (v : ι) (s : TMap ι × Unit) :
    (if !Time.IsZero (s.1.getItemTTL (Item.GetID v)) &&
          Time.After (s.1.nowFn ()) (s.1.getItemTTL (Item.GetID v)) then
        (true, ((s.1.Delete (Item.GetID v)).1, ()))
      else (true, s)) =
      (true, ((if !Time.IsZero (s.1.getItemTTL (Item.GetID v)) &&
          Time.After (s.1.nowFn ()) (s.1.getItemTTL (Item.GetID v)) then
        (s.1.Delete (Item.GetID v)).1 else s.1), ())) := by
  by_cases hx : (!Time.IsZero (s.1.getItemTTL (Item.GetID v)) &&
      Time.After (s.1.nowFn ()) (s.1.getItemTTL (Item.GetID v))) = true
  · rw [if_pos hx, if_pos hx]
  · rw [if_neg hx, if_neg hx]

end TMap

end Tmap

namespace Tmap

namespace TMap

variable {ι : Type} [Item ι]

/-- One visit of the sweep, on any store: the clock and the TTL stay, and either
the entries stay, or the identifier of the visited item had a non-zero expiry
strictly before the clock reading and the entry under it is removed. -/
theorem sweep_visit_effect (v : ι) (s : TMap ι × Unit) :
    (if !Time.IsZero (s.1.getItemTTL (Item.GetID v)) &&
          Time.After (s.1.nowFn ()) (s.1.getItemTTL (Item.GetID v)) then
        (true, ((s.1.Delete (Item.GetID v)).1, ()))
      else (true, s)).2.1.nowFn = s.1.nowFn ∧
    (if !Time.IsZero (s.1.getItemTTL (Item.GetID v)) &&
          Time.After (s.1.nowFn ()) (s.1.getItemTTL (Item.GetID v)) then
        (true, ((s.1.Delete (Item.GetID v)).1, ()))
      else (true, s)).2.1.ttl = s.1.ttl ∧
    ((¬ (!Time.IsZero (s.1.getItemTTL (Item.GetID v)) &&
          Time.After (s.1.nowFn ()) (s.1.getItemTTL (Item.GetID v))) = true ∧
      (if !Time.IsZero (s.1.getItemTTL (Item.GetID v)) &&
          Time.After (s.1.nowFn ()) (s.1.getItemTTL (Item.GetID v)) then
        (true, ((s.1.Delete (Item.GetID v)).1, ()))
      else (true, s)).2.1.items.entries = s.1.items.entries) ∨
     ((!Time.IsZero (s.1.getItemTTL (Item.GetID v)) &&
          Time.After (s.1.nowFn ()) (s.1.getItemTTL (Item.GetID v))) = true ∧
      (if !Time.IsZero (s.1.getItemTTL (Item.GetID v)) &&
          Time.After (s.1.nowFn ()) (s.1.getItemTTL (Item.GetID v)) then
        (true, ((s.1.Delete (Item.GetID v)).1, ()))
      else (true, s)).2.1.items.entries =
        s.1.items.entries.filter (fun e => e.1 != Item.GetID v))) := by
  rw [sweep_visit]
  by_cases hx : (!Time.IsZero (s.1.getItemTTL (Item.GetID v)) &&
      Time.After (s.1.nowFn ()) (s.1.getItemTTL (Item.GetID v))) = true
  · rw [if_pos hx]
    have hd := Delete_entries s.1 (Item.GetID v)
    exact ⟨hd.2.2, hd.2.1, Or.inr ⟨hx, hd.1⟩⟩
  · rw [if_neg hx]
    exact ⟨rfl, rfl, Or.inl ⟨hx, rfl⟩⟩

/-- On any store, one sweep leaves in place every entry that passes the test
`sweepKeeps` at the clock reading, and changes neither the TTL nor the clock. -/
theorem flushTick_keeps (m : TMap ι) (e : String × Wrapper ι)
    (he : e ∈ m.items.entries) (hk : sweepKeeps (m.nowFn ()) e = true) :
    e ∈ m.flushTick.items.entries ∧ m.flushTick.nowFn = m.nowFn ∧
      m.flushTick.ttl = m.ttl := by
  have key := SyncMap.rangeLoop_inv
    (fun (st : (TMap ι × Unit) × List ι) => st.1.1.items)
    (fun _ value st =>
      let item := value.item
      let c := (fun v (s : TMap ι × Unit) =>
        let key := Item.GetID v
        let ttl := s.1.getItemTTL key
        if !Time.IsZero ttl && Time.After (s.1.nowFn ()) ttl then
          (true, ((s.1.Delete key).1, ()))
        else
          (true, s)) item st.1
      (true, (c.2, if c.1 then st.2 ++ [item] else st.2)))
    (fun st => e ∈ st.1.1.items.entries ∧ st.1.1.nowFn = m.nowFn ∧ st.1.1.ttl = m.ttl)
    (by
      intro k v s hs _
      obtain ⟨h1, h2, h3⟩ := sweep_visit_effect v.item s.1
      refine ⟨?_, h1.trans hs.2.1, h2.trans hs.2.2⟩
      rcases h3 with ⟨_, h3⟩ | ⟨hx, h3⟩
      · exact h3 ▸ hs.1
      · refine h3 ▸ List.mem_filter.mpr ⟨hs.1, ?_⟩
        have hne : e.1 ≠ Item.GetID v.item := by
          intro heq
          have hl : s.1.1.items.Load (Item.GetID v.item) = some e.2 :=
            SyncMap.Load_eq_some_iff.mpr (by rw [← heq]; exact hs.1)
          have httl : s.1.1.getItemTTL (Item.GetID v.item) = e.2.ttl := by
            simp [getItemTTL, hl]
          rw [httl, hs.2.1] at hx
          simp [sweepKeeps, hx] at hk
        simpa using hne)
    m.items.keys ((m, ()), []) ⟨he, rfl, rfl⟩
  exact key

/-- On any store, one sweep removes the identifier of an entry that is filed
under its own item's identifier and fails the test `sweepKeeps`. -/
theorem flushTick_removes (m : TMap ι) (k : String) (w : Wrapper ι)
    (he : (k, w) ∈ m.items.entries) (hid : Item.GetID w.item = k)
    (hk : sweepKeeps (m.nowFn ()) (k, w) = false) :
    k ∉ m.flushTick.items.keys := by
  have hx0 : (!Time.IsZero w.ttl && Time.After (m.nowFn ()) w.ttl) = true := by
    simpa [sweepKeeps] using hk
  have key := SyncMap.rangeLoop_reach
    (fun (st : (TMap ι × Unit) × List ι) => st.1.1.items)
    (fun _ value st =>
      let item := value.item
      let c := (fun v (s : TMap ι × Unit) =>
        let key := Item.GetID v
        let ttl := s.1.getItemTTL key
        if !Time.IsZero ttl && Time.After (s.1.nowFn ()) ttl then
          (true, ((s.1.Delete key).1, ()))
        else
          (true, s)) item st.1
      (true, (c.2, if c.1 then st.2 ++ [item] else st.2)))
    (fun st => st.1.1.nowFn = m.nowFn ∧
      ∀ v, st.1.1.items.Load k = some v → v = w)
    (fun st => k ∉ st.1.1.items.keys) k
    (by
      intro k' v s hs _
      obtain ⟨h1, _, h3⟩ := sweep_visit_effect v.item s.1
      refine ⟨rfl, h1.trans hs.1, ?_⟩
      intro u hu
      apply hs.2 u
      have hmem := SyncMap.Load_eq_some_iff.mp hu
      apply SyncMap.Load_eq_some_iff.mpr
      rcases h3 with ⟨_, h3⟩ | ⟨_, h3⟩
      · exact h3 ▸ hmem
      · exact (List.mem_filter.mp (h3 ▸ hmem)).1)
    (by
      intro k' v s _ hq _ hin
      apply hq
      obtain ⟨e, he', hek⟩ := List.mem_map.mp hin
      obtain ⟨_, _, h3⟩ := sweep_visit_effect v.item s.1
      refine List.mem_map.mpr ⟨e, ?_, hek⟩
      rcases h3 with ⟨_, h3⟩ | ⟨_, h3⟩
      · exact h3 ▸ he'
      · exact (List.mem_filter.mp (h3 ▸ he')).1)
    (by
      intro v s hs hl hin
      have hv : v = w := hs.2 v hl
      subst hv
      obtain ⟨e, he', hek⟩ := List.mem_map.mp hin
      obtain ⟨_, _, h3⟩ := sweep_visit_effect v.item s.1
      have httl : s.1.1.getItemTTL (Item.GetID v.item) = v.ttl := by
        rw [hid]
        simp [getItemTTL, hl]
      have hcond : (!Time.IsZero (s.1.1.getItemTTL (Item.GetID v.item)) &&
          Time.After (s.1.1.nowFn ()) (s.1.1.getItemTTL (Item.GetID v.item))) = true := by
        rw [httl, hs.1]
        exact hx0
      rcases h3 with ⟨hn, _⟩ | ⟨_, h3⟩
      · exact hn hcond
      · have h4 := (List.mem_filter.mp (h3 ▸ he')).2
        rw [hid, hek] at h4
        simp at h4)
    (by
      intro s _ hl
      exact SyncMap.Load_eq_none_iff.mp hl)
    m.items.keys ((m, ()), [])
    ⟨rfl, fun v hv => by
      have := SyncMap.Load_eq_some_iff.mpr he
      rw [this] at hv
      exact (Option.some.inj hv).symm⟩
    (Or.inl (List.mem_map.mpr ⟨(k, w), he, rfl⟩))
  exact key

end TMap

end Tmap

namespace Tmap

/-! ## Sequences of sweeps, the loop of `Flush`, and the TTL of a store -/

theorem sweepKeeps_eq {ι : Type} (now : Time) (e : String × Wrapper ι) :
    sweepKeeps now e = decide (e.2.ttl = Time.zero ∨ now ≤ e.2.ttl) := by
  unfold sweepKeeps Time.IsZero Time.After
  by_cases h1 : e.2.ttl = Time.zero
  · simp [h1]
  · by_cases h2 : now ≤ e.2.ttl
    · have h3 : ¬ e.2.ttl < now := not_lt.mpr h2
      simp [h1, h2, h3]
    · have h3 : e.2.ttl < now := not_le.mp h2
      simp [h1, h2, h3]

namespace TMap

variable {ι : Type} [Item ι]

/-- An entry that passes the test of the sweep at every clock reading of a
sequence of sweeps is still there after them; the TTL is as before. -/
theorem sweeps_keeps (e : String × Wrapper ι) :
    ∀ (ts : List Time) (m : TMap ι), e ∈ m.items.entries →
      (∀ t ∈ ts, sweepKeeps t e = true) →
      e ∈ (m.sweeps ts).items.entries ∧ (m.sweeps ts).ttl = m.ttl
  | [], _, he, _ => ⟨he, rfl⟩
  | t :: ts, m, he, hk => by
    have h1 := flushTick_keeps (m.setNow t) e he (hk t (List.mem_cons_self t ts))
    have h2 := sweeps_keeps e ts (m.setNow t).flushTick h1.1
      (fun u hu => hk u (List.mem_cons_of_mem t hu))
    exact ⟨h2.1, h2.2.trans h1.2.2⟩

/-- The loop of `Flush` runs the sweeps of the ticks it receives and returns at
the first `done`, whatever follows it. -/
theorem Flush_ticks_done :
    ∀ (ts : List Time) (m : TMap ι) (post : List Event),
      m.Flush (ts.map Event.tick ++ Event.done :: post) = some (m.sweeps ts)
  | [], _, _ => rfl
  | t :: ts, m, post => by
    show (m.setNow t).flushTick.Flush (ts.map Event.tick ++ Event.done :: post) = _
    rw [Flush_ticks_done ts _ post]
    rfl

/-- Without a `done` the loop of `Flush` is still waiting. -/
theorem Flush_ticks_only :
    ∀ (ts : List Time) (m : TMap ι), m.Flush (ts.map Event.tick) = none
  | [], _ => rfl
  | t :: ts, m => by
    show (m.setNow t).flushTick.Flush (ts.map Event.tick) = _
    exact Flush_ticks_only ts _

/-- No call changes the TTL of a store whose entries are filed under their own
identifiers. -/
theorem exec_ttl (m : TMap ι) (h : KeyInv m.items) (op : Op ι) :
    (m.exec op).1.ttl = m.ttl := by
  cases op with
  | load itemID => rfl
  | store item => rfl
  | swap item =>
    show (m.Swap item).1.ttl = m.ttl
    cases hl : m.items.Load (Item.GetID item) with
    | none => rw [Swap_of_none hl]
    | some v => rw [Swap_of_some hl]
  | delete itemID => exact (Delete_entries m itemID).2.1
  | range p =>
    show (m.RangePure p).2.ttl = m.ttl
    rw [RangePure_eq]
  | truncate => exact (Truncate_of_KeyInv m h).2.2.1
  | tick => exact (flushTick_of_KeyInv m h).2.1
  | clock t => rfl

theorem run_ttl :
    ∀ (ops : List (Op ι)) (m : TMap ι), KeyInv m.items → (m.run ops).ttl = m.ttl
  | [], _, _ => rfl
  | op :: ops, m, h => by
    show ((m.exec op).1.run ops).ttl = m.ttl
    rw [run_ttl ops _ (KeyInv_exec m h op), exec_ttl m h op]

/-- The expiry read back after `Store`. -/
theorem getItemTTL_Store (m : TMap ι) (item : ι) :
    (m.Store item).1.getItemTTL (Item.GetID item) = m.nowFn () + m.ttl := by
  have h : (m.Store item).1.items.Load (Item.GetID item)
      = some (Wrapper.mk item (Time.Add (m.nowFn ()) m.ttl)) := SyncMap.Load_Swap_self _ _ _
  simp [getItemTTL, h, Time.Add]

/-- The write of `Swap` files the item under its identifier, whatever the store. -/
theorem Load_swapWrite (m : TMap ι) (item : ι) :
    (m.swapWrite item).items.Load (Item.GetID item)
      = some (Wrapper.mk item (m.nowFn () + m.ttl)) :=
  SyncMap.Load_Swap_self _ _ _

/-- `Swap` is its check followed by its write. -/
theorem Swap_eq_check_write (m : TMap ι) (item : ι) :
    m.Swap item =
      if m.swapCheck item then (m, some errNotFound) else (m.swapWrite item, none) := rfl

theorem swapCheck_eq_false_iff (m : TMap ι) (item : ι) :
    m.swapCheck item = false ↔ Item.GetID item ∈ m.items.keys := by
  rw [← Load_err_eq_none_iff]
  simp [swapCheck]

end TMap

end Tmap

namespace Tmap

/-! ## `Truncate` amid other goroutines -/

/-- With the other goroutines idle the loop amid them is the plain loop. -/
theorem SyncMap.rangeLoopAmid_idle {ι σ : Type} (cur : σ → SyncMap ι)
    (f : String → Wrapper ι → σ → Bool × σ) :
    ∀ (ks : List String) (s : σ),
      SyncMap.rangeLoopAmid cur f (fun _ s => s) ks s = SyncMap.rangeLoop cur f ks s
  | [], _ => rfl
  | k :: ks, s => by
    unfold SyncMap.rangeLoopAmid SyncMap.rangeLoop
    cases (cur s).Load k with
    | none => exact SyncMap.rangeLoopAmid_idle cur f ks s
    | some v =>
      simp only
      by_cases hc : (f k v s).1 = true
      · rw [if_pos hc, if_pos hc]
        exact SyncMap.rangeLoopAmid_idle cur f ks _
      · rw [if_neg hc, if_neg hc]

/-- With the other goroutines idle, `Truncate` amid them is `Truncate`. -/
theorem TMap.TruncateAmid_alone {ι : Type} [Item ι] (m : TMap ι) :
    m.TruncateAmid (fun _ s => s) = m.Truncate := by
  unfold TMap.TruncateAmid TMap.Truncate TMap.RangeAmid TMap.Range SyncMap.Range
  simp only
  rw [SyncMap.rangeLoopAmid_idle]

/-! ## `Truncate`, the sweep and the expiry -/

/-- C11. `TestTruncate` calls `Truncate` while the goroutine of `Flush` sweeps
the same three expired entries.  When that sweep lands between the load of an
entry by the `Range` of `Truncate` and the `Delete` of its callback, whichever
entry it is, the `Delete` misses and `Truncate` returns `errNotFound`, not the
`nil` the test asserts; the store ends empty all the same.  Run alone on the same
store `Truncate` returns `nil`. -/
theorem C11_truncate_amid_sweep_reports_NotFound :
    (storeTestTruncate.TruncateAmid (TMap.sweepAfterLoadOf "item1")).2 = some errNotFound ∧
      (storeTestTruncate.TruncateAmid (TMap.sweepAfterLoadOf "item2")).2
        = some errNotFound ∧
      (storeTestTruncate.TruncateAmid (TMap.sweepAfterLoadOf "item3")).2
        = some errNotFound ∧
      (storeTestTruncate.TruncateAmid (TMap.sweepAfterLoadOf "item3")).1.items.entries
        = [] ∧
      storeTestTruncate.items.keys = ["item3", "item2", "item1"] ∧
      storeTestTruncate.flushTick.items.entries = [] ∧
      storeTestTruncate.TruncateAmid (fun _ s => s) = storeTestTruncate.Truncate ∧
      storeTestTruncate.Truncate.2 = none := by
  refine ⟨by decide, by decide, by decide, by decide, by decide, by decide, ?_, by decide⟩
  exact TMap.TruncateAmid_alone storeTestTruncate

/-- C12, as stated, fails: after `Store(A)` in a store of TTL 0 with the clock at
the zero instant the expiry of `A` is the zero instant; a sweep with the clock
at 5 leaves the entry, although its expiry is strictly before 5 and the entries
with expiry at or after 5 are none.  It fails as well on the store whose entry
under `a` holds an item answering `b`: the sweep with the clock at 50 looks up
`b`, finds no expiry, and leaves the entry whose expiry 10 is before 50. -/
theorem C12_tick_keeps_zero_expiry :
    ((((NewTMap 0 (fun _ => 0) : TMap TestItem).Store (TestItem.mk "A" false)).1.setNow
        5).flushTick.items.entries
      = [("A", Wrapper.mk (TestItem.mk "A" false) 0)]) ∧
    (((NewTMap 0 (fun _ => 0) : TMap TestItem).Store
        (TestItem.mk "A" false)).1.items.entries.filter
          (fun e => decide ((5 : Time) ≤ e.2.ttl)) = []) ∧
    ((storeMisfiled.setNow 50).flushTick.items.entries
      = [("a", Wrapper.mk (TestItem.mk "b" false) 10)]) ∧
    (storeMisfiled.items.entries.filter (fun e => decide ((50 : Time) ≤ e.2.ttl)) = []) := by
  decide

/-- C12, amended. On every store whose entries are each filed under the
identifier of their own item, and for every clock reading `now`, one sweep
removes exactly the entries whose expiry is not the zero instant and is strictly
before `now`: the store afterwards holds the prior entries whose expiry is the
zero instant or is at or after `now`, in their order, each with its item and
expiry; the TTL is unchanged. -/
theorem C12_tick_filters {ι : Type} [Item ι] (m : TMap ι) (now : Time)
    (h : KeyInv m.items) :
    (m.setNow now).flushTick.items.entries
        = m.items.entries.filter (fun e => decide (e.2.ttl = Time.zero ∨ now ≤ e.2.ttl)) ∧
      (∀ e ∈ m.items.entries,
        e ∈ (m.setNow now).flushTick.items.entries ↔ ¬ (e.2.ttl ≠ Time.zero ∧ e.2.ttl < now)) ∧
      (∀ e ∈ (m.setNow now).flushTick.items.entries, e ∈ m.items.entries) ∧
      (m.setNow now).flushTick.ttl = m.ttl := by
  have h0 := TMap.flushTick_of_KeyInv (m.setNow now) h
  have h1 : (m.setNow now).flushTick.items.entries
      = m.items.entries.filter (fun e => decide (e.2.ttl = Time.zero ∨ now ≤ e.2.ttl)) := by
    rw [h0.1]
    apply List.filter_congr
    intro e _
    exact sweepKeeps_eq now e
  refine ⟨h1, ?_, ?_, h0.2.1⟩
  · intro e he
    rw [h1, List.mem_filter]
    constructor
    · rintro ⟨_, hd⟩ ⟨hz, hlt⟩
      rcases of_decide_eq_true hd with h2 | h2
      · exact hz h2
      · exact absurd hlt (not_lt.mpr h2)
    · intro hn
      refine ⟨he, decide_eq_true ?_⟩
      by_cases hz : e.2.ttl = Time.zero
      · exact Or.inl hz
      · exact Or.inr (not_lt.mp (fun hlt => hn ⟨hz, hlt⟩))
  · intro e he
    rw [h1] at he
    exact (List.mem_filter.mp he).1

/-- C12, amended, at the store holding `A`, `B` and `C` (expiry 10), clock at 11. -/
theorem C12_tick_filters_witness :
    KeyInv storeABC.items ∧ (storeABC.setNow 11).flushTick.items.entries = [] :=
  ⟨KeyInv_of_Reachable ⟨10, fun _ => 0, _, rfl⟩,
    (C12_tick_filters storeABC 11 (KeyInv_of_Reachable ⟨10, fun _ => 0, _, rfl⟩)).1.trans
      (by decide)⟩

/-- C13, as stated, fails: with TTL 10 and `Store(A)` at clock reading -10 the
expiry is the zero instant; a sweep with the clock at 1, which is after it,
does not evict `A`, and `Load(A)` still succeeds. -/
theorem C13_zero_deadline_survives :
    ((-10 : Time) + 10 < 1) ∧
      (((((NewTMap 10 (fun _ => 0) : TMap TestItem).setNow (-10)).Store
          (TestItem.mk "A" false)).1.setNow 1).flushTick.Load "A"
        = (some (TestItem.mk "A" false), none)) := by
  decide

/-- C13, amended. For every store, item `A` and `t0`: after `Store(A)` with the
clock at `t0`, `Load(A)` succeeds after a sweep, or any number of sweeps, run
with the clock at or before `t0 + ttl`; and `Load(A)` returns `NotFound` after
one sweep run with the clock after `t0 + ttl`, provided `t0 + ttl` is not the
zero instant.  With TTL 10 and `t0 + 10` not the zero instant: `Load` at
`t0 + 5` succeeds and the sweep at `t0 + 11` evicts. -/
theorem C13_expiry_scenario {ι : Type} [Item ι] (m : TMap ι) (A : ι) (t0 : Time) :
    (∀ now, now ≤ t0 + m.ttl →
      (((m.setNow t0).Store A).1.setNow now).flushTick.Load (Item.GetID A)
        = (some A, none)) ∧
    (∀ ts : List Time, (∀ t ∈ ts, t ≤ t0 + m.ttl) →
      (((m.setNow t0).Store A).1.sweeps ts).Load (Item.GetID A) = (some A, none)) ∧
    (∀ now, t0 + m.ttl < now → t0 + m.ttl ≠ Time.zero →
      (((m.setNow t0).Store A).1.setNow now).flushTick.Load (Item.GetID A)
        = (none, some errNotFound)) ∧
    (m.ttl = 10 → t0 + 10 ≠ Time.zero →
      (((m.setNow t0).Store A).1.setNow (t0 + 5)).Load (Item.GetID A) = (some A, none) ∧
      (((m.setNow t0).Store A).1.setNow (t0 + 11)).flushTick.Load (Item.GetID A)
        = (none, some errNotFound)) := by
  have hmem : (Item.GetID A, Wrapper.mk A (t0 + m.ttl)) ∈
      ((m.setNow t0).Store A).1.items.entries := List.mem_cons_self _ _
  have hload : ((m.setNow t0).Store A).1.Load (Item.GetID A) = (some A, none) :=
    TMap.Load_of_some (SyncMap.Load_eq_some_iff.mpr hmem)
  have hkeep : ∀ now, now ≤ t0 + m.ttl →
      sweepKeeps now (Item.GetID A, Wrapper.mk A (t0 + m.ttl)) = true := by
    intro now hle
    rw [sweepKeeps_eq]
    exact decide_eq_true (Or.inr hle)
  have hgone : ∀ now, t0 + m.ttl < now → t0 + m.ttl ≠ Time.zero →
      (((m.setNow t0).Store A).1.setNow now).flushTick.Load (Item.GetID A)
        = (none, some errNotFound) := by
    intro now hlt hz
    apply TMap.Load_of_none
    rw [SyncMap.Load_eq_none_iff]
    apply TMap.flushTick_removes (((m.setNow t0).Store A).1.setNow now) (Item.GetID A)
      (Wrapper.mk A (t0 + m.ttl)) hmem rfl
    rw [sweepKeeps_eq]
    apply decide_eq_false
    rintro (h1 | h1)
    · exact hz h1
    · exact absurd hlt (not_lt.mpr h1)
  refine ⟨?_, ?_, hgone, ?_⟩
  · intro now hle
    exact TMap.Load_of_some (SyncMap.Load_eq_some_iff.mpr
      (TMap.flushTick_keeps (((m.setNow t0).Store A).1.setNow now) _ hmem (hkeep now hle)).1)
  · intro ts hts
    exact TMap.Load_of_some (SyncMap.Load_eq_some_iff.mpr
      (TMap.sweeps_keeps _ ts _ hmem (fun t ht => hkeep t (hts t ht))).1)
  · intro h10 hz
    refine ⟨hload, hgone (t0 + 11) ?_ ?_⟩
    · rw [h10]
      exact Int.add_lt_add_left (by decide) t0
    · rw [h10]
      exact hz

end Tmap

namespace Tmap

/-! ## `Swap` step by step, the expiry of a write, and the loop of `Flush` -/

/-- C14, as stated, fails: on the store holding `A`, `B`, `C` the check of
`Swap(B')` passes; a `Delete("B")` then completes and `B` is gone; the write of
`Swap` made after it files `B'` under `B`, so the deleted identifier is present
after both have finished. -/
theorem C14_swap_resurrects_deleted_key :
    storeABC.swapCheck (TestItem.mk "B" true) = false ∧
      (storeABC.Delete "B").2 = none ∧
      (storeABC.Delete "B").1.Load "B" = (none, some errNotFound) ∧
      ((storeABC.Delete "B").1.swapWrite (TestItem.mk "B" true)).Load "B"
        = (some (TestItem.mk "B" true), none) := by
  decide

/-- C14, amended. `Swap` is an existence check followed by a separate write.
When the identifier is present the check passes, and with nothing in between
the write replaces the entry.  The write does not look at the map again: on
whatever store it runs it files the item under its identifier with expiry
`now + ttl`, so after a `Delete` of that identifier that completed between the
check and the write the identifier is present again, holding the swapped-in
item. -/
theorem C14_swap_check_then_write {ι : Type} [Item ι] (m : TMap ι) (item : ι)
    (h : Item.GetID item ∈ m.items.keys) :
    (m.Swap item =
        if m.swapCheck item then (m, some errNotFound) else (m.swapWrite item, none)) ∧
      m.swapCheck item = false ∧
      m.Swap item = (m.swapWrite item, none) ∧
      (m.Delete (Item.GetID item)).2 = none ∧
      (m.Delete (Item.GetID item)).1.Load (Item.GetID item) = (none, some errNotFound) ∧
      ((m.Delete (Item.GetID item)).1.swapWrite item).Load (Item.GetID item)
        = (some item, none) ∧
      (∀ m' : TMap ι, (m'.swapWrite item).items.Load (Item.GetID item)
        = some (Wrapper.mk item (m'.nowFn () + m'.ttl))) := by
  have hc := (TMap.swapCheck_eq_false_iff m item).mpr h
  obtain ⟨v, hv⟩ := SyncMap.Load_isSome_iff.mpr h
  refine ⟨rfl, hc, ?_, ?_, ?_, ?_, fun m' => TMap.Load_swapWrite m' item⟩
  · rw [TMap.Swap_eq_check_write, hc]
    rfl
  · rw [TMap.Delete_of_some hv]
  · rw [TMap.Delete_of_some hv]
    exact TMap.Load_of_none (SyncMap.Load_Delete_self _ _)
  · exact TMap.Load_of_some (TMap.Load_swapWrite _ item)

/-- C14, amended, at the store holding `A`, `B` and `C`. -/
theorem C14_swap_check_then_write_witness :
    Item.GetID (TestItem.mk "B" true) ∈ storeABC.items.keys ∧
      storeABC.Swap (TestItem.mk "B" true)
        = (storeABC.swapWrite (TestItem.mk "B" true), none) :=
  ⟨by decide, (C14_swap_check_then_write storeABC (TestItem.mk "B" true) (by decide)).2.2.1⟩

/-- C15, as stated, fails: in the store built by `NewTMap(-1, nowFn)`, a `Store`
made with the clock at 0 returns `nil` and records the expiry -1, which is
before 0. -/
theorem C15_negative_ttl_expiry_before_write :
    (((NewTMap (-1) (fun _ => 0) : TMap TestItem).setNow 0).Store
        (TestItem.mk "A" false)).2 = none ∧
      (((NewTMap (-1) (fun _ => 0) : TMap TestItem).setNow 0).Store
        (TestItem.mk "A" false)).1.getItemTTL "A" = -1 ∧
      ¬ ((0 : Time) ≤ (((NewTMap (-1) (fun _ => 0) : TMap TestItem).setNow 0).Store
        (TestItem.mk "A" false)).1.getItemTTL "A") := by
  decide

/-- C15, amended. For every store built by `NewTMap` with a TTL that is not
negative, and brought anywhere by the operations, a `Store`, and a `Swap` that
succeeds, performed with the clock reading `t` record for the written entry the
expiry `t + ttl`, which is at or after `t`. -/
theorem C15_expiry_not_before_write {ι : Type} [Item ι] (ttl : Duration)
    (nowFn : Unit → Time) (ops : List (Op ι)) (item : ι) (t : Time) (h : 0 ≤ ttl) :
    ((((NewTMap ttl nowFn).run ops).setNow t).Store item).2 = none ∧
      ((((NewTMap ttl nowFn).run ops).setNow t).Store item).1.getItemTTL (Item.GetID item)
        = t + ttl ∧
      t ≤ ((((NewTMap ttl nowFn).run ops).setNow t).Store item).1.getItemTTL
        (Item.GetID item) ∧
      (((((NewTMap ttl nowFn).run ops).setNow t).Swap item).2 = none →
        ((((NewTMap ttl nowFn).run ops).setNow t).Swap item).1.getItemTTL (Item.GetID item)
            = t + ttl ∧
          t ≤ ((((NewTMap ttl nowFn).run ops).setNow t).Swap item).1.getItemTTL
            (Item.GetID item)) := by
  have httl : ((NewTMap ttl nowFn : TMap ι).run ops).ttl = ttl :=
    TMap.run_ttl ops _ KeyInv_empty
  have hs : ((((NewTMap ttl nowFn).run ops).setNow t).Store item).1.getItemTTL
      (Item.GetID item) = t + ttl := by
    rw [TMap.getItemTTL_Store]
    show t + ((NewTMap ttl nowFn : TMap ι).run ops).ttl = t + ttl
    rw [httl]
  have hle : t ≤ t + ttl := le_add_of_nonneg_right h
  refine ⟨rfl, hs, hs ▸ hle, ?_⟩
  intro hok
  cases hl : (((NewTMap ttl nowFn).run ops).setNow t).items.Load (Item.GetID item) with
  | none =>
    rw [TMap.Swap_of_none hl] at hok
    cases hok
  | some v =>
    have hw : ((((NewTMap ttl nowFn).run ops).setNow t).Swap item).1.getItemTTL
        (Item.GetID item) = t + ttl := by
      rw [TMap.Swap_of_some hl]
      have h2 := TMap.Load_swapWrite (((NewTMap ttl nowFn).run ops).setNow t) item
      have h3 : (TMap.mk ((((NewTMap ttl nowFn).run ops).setNow t).items.Swap (Item.GetID item)
          (Wrapper.mk item (Time.Add ((((NewTMap ttl nowFn).run ops).setNow t).nowFn ())
            (((NewTMap ttl nowFn).run ops).setNow t).ttl)))
          (((NewTMap ttl nowFn).run ops).setNow t).ttl
          (((NewTMap ttl nowFn).run ops).setNow t).nowFn).items.Load (Item.GetID item)
          = some (Wrapper.mk item (t + ((NewTMap ttl nowFn : TMap ι).run ops).ttl)) := h2
      simp only [TMap.getItemTTL, h3]
      rw [httl]
    exact ⟨hw, hw ▸ hle⟩

/-- C15, amended, at a store of TTL 10 after three stores, clock at 7. -/
theorem C15_expiry_not_before_write_witness :
    (0 : Duration) ≤ 10 ∧
      (7 : Time) ≤ ((storeABC.setNow 7).Store (TestItem.mk "D" false)).1.getItemTTL "D" :=
  ⟨by decide,
    (C15_expiry_not_before_write 10 (fun _ => 0)
      [Op.store (TestItem.mk "A" false), Op.store (TestItem.mk "B" false),
        Op.store (TestItem.mk "C" false)] (TestItem.mk "D" false) 7 (by decide)).2.2.1⟩

end Tmap

namespace Tmap

/-- C16. An entry refreshed by `Swap` is judged by its new deadline: for every
`t0 <= t1`, when `A` is stored with the clock at `t0` and an item `B` with the
same identifier is swapped in with the clock at `t1`, the `Swap` returns `nil`
and a sweep run with the clock at any `now <= t1 + ttl`, also one after
`t0 + ttl`, leaves the entry; `Load` afterwards returns the swapped-in item. -/
theorem C16_swap_refreshes_deadline {ι : Type} [Item ι] (m : TMap ι) (A B : ι)
    (t0 t1 now : Time) (hid : Item.GetID B = Item.GetID A) (_ : t0 ≤ t1)
    (hnow : now ≤ t1 + m.ttl) :
    ((((m.setNow t0).Store A).1.setNow t1).Swap B).2 = none ∧
      (Item.GetID A, Wrapper.mk B (t1 + m.ttl)) ∈
        ((((((m.setNow t0).Store A).1.setNow t1).Swap B).1.setNow now).flushTick).items.entries ∧
      ((((((m.setNow t0).Store A).1.setNow t1).Swap B).1.setNow now).flushTick).Load
        (Item.GetID A) = (some B, none) := by
  have hA : (((m.setNow t0).Store A).1.setNow t1).items.Load (Item.GetID B)
      = some (Wrapper.mk A (t0 + m.ttl)) := by
    rw [hid]
    exact SyncMap.Load_Swap_self _ _ _
  have hsw := TMap.Swap_of_some hA
  have hmem : (Item.GetID A, Wrapper.mk B (t1 + m.ttl)) ∈
      ((((m.setNow t0).Store A).1.setNow t1).Swap B).1.items.entries := by
    rw [hsw, ← hid]
    exact List.mem_cons_self _ _
  have hkeep : sweepKeeps now (Item.GetID A, Wrapper.mk B (t1 + m.ttl)) = true := by
    rw [sweepKeeps_eq]
    exact decide_eq_true (Or.inr hnow)
  have hin := (TMap.flushTick_keeps
    (((((m.setNow t0).Store A).1.setNow t1).Swap B).1.setNow now) _ hmem hkeep).1
  refine ⟨by rw [hsw], hin, ?_⟩
  exact TMap.Load_of_some (SyncMap.Load_eq_some_iff.mpr hin)

/-- C16, with TTL 10: stored at 0, swapped at 8, swept at 15, which is after the
first deadline 10 and before the new one 18. -/
theorem C16_swap_refreshes_deadline_witness :
    Item.GetID (TestItem.mk "A" true) = Item.GetID (TestItem.mk "A" false) ∧
      (0 : Time) ≤ 8 ∧ (15 : Time) ≤ 8 + (NewTMap 10 (fun _ => 0) : TMap TestItem).ttl ∧
      (0 : Time) + (NewTMap 10 (fun _ => 0) : TMap TestItem).ttl < 15 ∧
      (((((((NewTMap 10 (fun _ => 0) : TMap TestItem).setNow 0).Store
          (TestItem.mk "A" false)).1.setNow 8).Swap (TestItem.mk "A" true)).1.setNow
            15).flushTick).Load (Item.GetID (TestItem.mk "A" false))
        = (some (TestItem.mk "A" true), none) :=
  ⟨rfl, by decide, by decide, by decide,
    (C16_swap_refreshes_deadline (NewTMap 10 (fun _ => 0)) (TestItem.mk "A" false)
      (TestItem.mk "A" true) 0 8 15 rfl (by decide) (by decide)).2.2⟩

/-- C17. The loop of `Flush`, fed ticks (each with its clock reading) and then
the cancellation, terminates when it takes the cancellation and returns the
store left by the sweeps of the ticks taken before it; the events after the
cancellation, ticks at any clock reading included, change nothing.  Fed ticks
only, the loop has not returned. -/
theorem C17_flush_stops_on_cancel {ι : Type} [Item ι] (m : TMap ι) (ts : List Time)
    (post : List TMap.Event) :
    m.Flush (ts.map TMap.Event.tick ++ TMap.Event.done :: post) = some (m.sweeps ts) ∧
      m.Flush (ts.map TMap.Event.tick ++ TMap.Event.done :: post)
        = m.Flush (ts.map TMap.Event.tick ++ [TMap.Event.done]) ∧
      (∀ later : List Time,
        m.Flush (TMap.Event.done :: later.map TMap.Event.tick) = some m) ∧
      m.Flush (ts.map TMap.Event.tick) = none := by
  refine ⟨TMap.Flush_ticks_done ts m post, ?_, fun _ => rfl, TMap.Flush_ticks_only ts m⟩
  rw [TMap.Flush_ticks_done ts m post, TMap.Flush_ticks_done ts m []]

/-- C18. In every store reached from an empty one by `Store`, `Swap`, `Delete`,
`Truncate`, sweeps, reads and clock changes, every entry is filed under the
identifier of its own item, and `Load(x.GetID())` of a stored item `x` returns
`x`. -/
theorem C18_key_is_item_identity {ι : Type} [Item ι] (m : TMap ι) (h : Reachable m) :
    (∀ e ∈ m.items.entries, Item.GetID e.2.item = e.1) ∧
      (∀ e ∈ m.items.entries, m.Load (Item.GetID e.2.item) = (some e.2.item, none)) := by
  have hinv := KeyInv_of_Reachable h
  refine ⟨hinv, ?_⟩
  intro e he
  rw [hinv e he]
  exact TMap.Load_of_some (SyncMap.Load_eq_some_iff.mpr he)

/-- C18, at a store reached by stores, a swap, a delete and a sweep. -/
theorem C18_key_is_item_identity_witness :
    Reachable ((NewTMap 10 (fun _ => 0) : TMap TestItem).run
        [Op.store (TestItem.mk "A" false), Op.store (TestItem.mk "B" false),
          Op.swap (TestItem.mk "A" true), Op.delete "B", Op.clock 5, Op.tick]) ∧
      ((NewTMap 10 (fun _ => 0) : TMap TestItem).run
        [Op.store (TestItem.mk "A" false), Op.store (TestItem.mk "B" false),
          Op.swap (TestItem.mk "A" true), Op.delete "B", Op.clock 5,
          Op.tick]).items.entries = [("A", Wrapper.mk (TestItem.mk "A" true) 10)] ∧
      (∀ e ∈ ((NewTMap 10 (fun _ => 0) : TMap TestItem).run
        [Op.store (TestItem.mk "A" false), Op.store (TestItem.mk "B" false),
          Op.swap (TestItem.mk "A" true), Op.delete "B", Op.clock 5,
          Op.tick]).items.entries, Item.GetID e.2.item = e.1) :=
  ⟨⟨10, fun _ => 0, _, rfl⟩, by decide,
    (C18_key_is_item_identity _ ⟨10, fun _ => 0, _, rfl⟩).1⟩

/-- C19. On every store and at every clock reading, a sweep of `Flush` leaves in
place every entry whose expiry is the zero instant `time.Time{}`, also when the
clock reads after it; so does any sequence of sweeps. -/
theorem C19_zero_expiry_never_swept {ι : Type} [Item ι] (m : TMap ι)
    (e : String × Wrapper ι) (he : e ∈ m.items.entries) (hz : e.2.ttl = Time.zero) :
    (∀ now : Time, e ∈ (m.setNow now).flushTick.items.entries) ∧
      (∀ ts : List Time, e ∈ (m.sweeps ts).items.entries) ∧
      (∀ ts : List Time, m.Flush (ts.map TMap.Event.tick ++ [TMap.Event.done])
        = some (m.sweeps ts)) := by
  have hkeep : ∀ now, sweepKeeps now e = true := by
    intro now
    rw [sweepKeeps_eq]
    exact decide_eq_true (Or.inl hz)
  exact ⟨fun now => (TMap.flushTick_keeps (m.setNow now) e he (hkeep now)).1,
    fun ts => (TMap.sweeps_keeps e ts m he (fun t _ => hkeep t)).1,
    fun ts => TMap.Flush_ticks_done ts m []⟩

/-- C19, at the store of TTL 0 in which `A` was stored with the clock at the
zero instant, swept with the clock at 1000. -/
theorem C19_zero_expiry_never_swept_witness :
    ("A", Wrapper.mk (TestItem.mk "A" false) 0) ∈
        ((NewTMap 0 (fun _ => 0) : TMap TestItem).Store
          (TestItem.mk "A" false)).1.items.entries ∧
      (Wrapper.mk (TestItem.mk "A" false) 0).ttl = Time.zero ∧
      ("A", Wrapper.mk (TestItem.mk "A" false) 0) ∈
        ((((NewTMap 0 (fun _ => 0) : TMap TestItem).Store
          (TestItem.mk "A" false)).1).setNow 1000).flushTick.items.entries :=
  ⟨by decide, rfl,
    (C19_zero_expiry_never_swept
      ((NewTMap 0 (fun _ => 0) : TMap TestItem).Store (TestItem.mk "A" false)).1
      ("A", Wrapper.mk (TestItem.mk "A" false) 0) (by decide) rfl).1 1000⟩

/-- C20. When `item.GetID()` is present, `Swap(item)` and `Store(item)` both
return `nil` and leave the same store; when it is absent, `Swap` returns
`NotFound` and leaves the store as it was, while `Store` returns `nil` and files
the item. -/
theorem C20_swap_is_store_when_present {ι : Type} [Item ι] (m : TMap ι) (item : ι) :
    (Item.GetID item ∈ m.items.keys →
      m.Swap item = m.Store item ∧ (m.Swap item).2 = none ∧ (m.Store item).2 = none) ∧
    (Item.GetID item ∉ m.items.keys →
      m.Swap item = (m, some errNotFound) ∧ (m.Store item).2 = none ∧
        (m.Store item).1.Load (Item.GetID item) = (some item, none)) := by
  constructor
  · intro h
    obtain ⟨v, hv⟩ := SyncMap.Load_isSome_iff.mpr h
    rw [TMap.Swap_of_some hv]
    exact ⟨rfl, rfl, rfl⟩
  · intro h
    rw [TMap.Swap_of_none (SyncMap.Load_eq_none_iff.mpr h)]
    refine ⟨rfl, rfl, ?_⟩
    have hl : (m.Store item).1.items.Load (Item.GetID item)
        = some (Wrapper.mk item (Time.Add (m.nowFn ()) m.ttl)) := SyncMap.Load_Swap_self _ _ _
    exact TMap.Load_of_some hl

end Tmap
